import Mathlib

/-!
Shallow embedding of the `quadtree` package (a point-region quadtree over the
generic numeric coordinate domain `math.Number`) together with the geometry
primitives it consumes (`orb.PointOf`, `orb.BoundOf`, `planar.DistanceSquared`,
and the numeric helpers of the `math` package).

The embedding instantiates the generic coordinate type `T` at the (idealized,
overflow-free) integer domain `ℤ`, one of the instantiations admitted by
`math.Number`.  Under that instantiation every arithmetic operation of the
source is exact: Go's integer division truncates toward zero (`tdiv2`), and
`math.Sqrt` — `T(math.Sqrt(float64(num)))` — truncates the floating-point
square root to an integer, i.e. computes the floor square root of a
nonnegative integer.  `math.MaxOf[T]()`, used by the visitors only as a
sentinel larger than every squared distance that occurs, is modelled as the
`none` case of an `Option ℤ` threshold.

Go pointer structure is rendered functionally: a `*node` is identified by the
path of child indices leading to it from the root, in-place mutation becomes
explicit state passing, and a runtime panic (nil dereference, out-of-range
slice index) is the `none` result of an `Option`-valued function.
-/

/-- A 2d point, `orb.PointOf[T]` (`point.go`); `p[0]` is `x`, `p[1]` is `y`. -/
structure Pt where
  x : ℤ
  y : ℤ
deriving DecidableEq, Repr

/-- Component-wise point equality, `PointOf.Equal` (`point.go` line 52). -/
def Pt.Equal (p q : Pt) : Bool :=
  decide (p.x = q.x) && decide (p.y = q.y)

/-- A closed rectangle, `orb.BoundOf[T]` (`bound.go`). -/
structure BoundOf where
  min : Pt
  max : Pt
deriving DecidableEq, Repr

/-- Containment test, `BoundOf.Contains` (`bound.go` lines 85-95); boundary
points are inside. -/
def BoundOf.Contains (b : BoundOf) (point : Pt) : Bool :=
  if point.y < b.min.y ∨ b.max.y < point.y then false
  else if point.x < b.min.x ∨ b.max.x < point.x then false
  else true

/-- Go's integer division truncates toward zero; `tdiv2 n` is the integer
instantiation of the source's `(a + b) / 2.0` midpoints. -/
def tdiv2 (n : ℤ) : ℤ :=
  if 0 ≤ n then n / 2 else -((-n) / 2)

/-- The integer instantiation of `math.Sqrt` (`math` package):
`T(math.Sqrt(float64(num)))` truncates the square root toward zero, i.e. is
the floor square root for the nonnegative arguments it receives (squared
distances). -/
def mathSqrt (num : ℤ) : ℤ :=
  Int.ofNat (Nat.sqrt num.toNat)

/-- Squared euclidean distance, `planar.DistanceSquared` (`line_string.go`
lines 58-63). -/
def DistanceSquared (p1 p2 : Pt) : ℤ :=
  (p1.x - p2.x) * (p1.x - p2.x) + (p1.y - p2.y) * (p1.y - p2.y)

/-- Comparison `d < threshold` where the threshold is an `Option ℤ` whose
`none` case models `math.MaxOf[T]()`, the sentinel larger than every squared
distance the tree ever produces. -/
def ltSentinel (d : ℤ) : Option ℤ → Bool
  | none => true
  | some m => decide (d < m)

/-- The `orb.PointerOf[T]` interface: an opaque caller-supplied entity
reference that can yield its location. -/
class PointerOf (α : Type) where
  point : α → Pt

/-- Location of an entity reference, `p.Point()`. -/
def ptOf {α : Type} [PointerOf α] (a : α) : Pt :=
  PointerOf.point a

/-- A plain point implements the pointer interface by returning itself
(`point.go` lines 26-29). -/
instance : PointerOf Pt := ⟨id⟩

/-- An optional entity filter; `nil` filters are the `none` case
(`FilterFunc[T]`, `quadtree.go` line 31). -/
def accepts {α : Type} (f : Option (α → Bool)) (v : α) : Bool :=
  match f with
  | none => true
  | some g => g v

/-- A quadtree node (`quadtree.go` lines 33-38): an optional stored value and
four child slots, quadrants 0-3. -/
inductive Node (α : Type) : Type where
  | mk : Option α → Option (Node α) → Option (Node α) → Option (Node α) → Option (Node α) →
      Node α

variable {α σ : Type}

/-- The node's stored value (`node.Value`). -/
def Node.value : Node α → Option α
  | .mk v _ _ _ _ => v

/-- The node's child slot `i` (`node.Children[i]`). -/
def Node.child : Node α → Fin 4 → Option (Node α)
  | .mk _ a _ _ _, ⟨0, _⟩ => a
  | .mk _ _ b _ _, ⟨1, _⟩ => b
  | .mk _ _ _ c _, ⟨2, _⟩ => c
  | .mk _ _ _ _ d, ⟨3, _⟩ => d

/-- Replace the node's value. -/
def Node.setValue : Node α → Option α → Node α
  | .mk _ a b c d, v => .mk v a b c d

/-- Replace one child slot. -/
def Node.setChild : Node α → Fin 4 → Option (Node α) → Node α
  | .mk v _ b c d, ⟨0, _⟩, a => .mk v a b c d
  | .mk v a _ c d, ⟨1, _⟩, b => .mk v a b c d
  | .mk v a b _ d, ⟨2, _⟩, c => .mk v a b c d
  | .mk v a b c _, ⟨3, _⟩, d => .mk v a b c d

/-- Number of nodes of a subtree. -/
def Node.size : Node α → ℕ
  | .mk _ c0 c1 c2 c3 =>
    1 + (match c0 with | none => 0 | some m => size m)
      + (match c1 with | none => 0 | some m => size m)
      + (match c2 with | none => 0 | some m => size m)
      + (match c3 with | none => 0 | some m => size m)

/-- Number of nodes of an optional subtree. -/
def Node.osize : Option (Node α) → ℕ
  | none => 0
  | some m => m.size

/-- Values stored in a subtree, in value-then-children order. -/
def Node.contentsList : Node α → List α
  | .mk v c0 c1 c2 c3 =>
    v.toList ++ (match c0 with | none => [] | some m => contentsList m)
      ++ (match c1 with | none => [] | some m => contentsList m)
      ++ (match c2 with | none => [] | some m => contentsList m)
      ++ (match c3 with | none => [] | some m => contentsList m)

/-- Values stored in an optional subtree. -/
def Node.ocontents : Option (Node α) → List α
  | none => []
  | some m => m.contentsList

/-- The quadtree (`QuadtreeOf[T]`, `quadtree.go` lines 25-28): the universe
bound and an optional root node. -/
structure QuadtreeOf (α : Type) where
  bound : BoundOf
  root : Option (Node α)

/-- `New` (`quadtree.go` lines 42-44). -/
def QuadtreeOf.New (bound : BoundOf) : QuadtreeOf α :=
  ⟨bound, none⟩

/-- `ErrPointOutsideOfBounds` (`quadtree.go` line 18), the only error value. -/
inductive QError where
  | pointOutsideOfBounds
deriving DecidableEq, Repr

/-- The recursive insertion walk `(*QuadtreeOf).add` (`quadtree.go` lines
82-107).  The source computes the child quadrant with two comparisons while
shrinking the cell; the four resulting branches are written out so that each
recursion is on the selected child. -/
def addRec [PointerOf α] : Node α → α → Pt → ℤ → ℤ → ℤ → ℤ → Node α
  | .mk v c0 c1 c2 c3, p, point, left, right, bottom, top =>
    let cy := tdiv2 (bottom + top)
    let cx := tdiv2 (left + right)
    if point.y ≤ cy then
      if point.x ≥ cx then
        match c3 with
        | none => .mk v c0 c1 c2 (some (.mk (some p) none none none none))
        | some m => .mk v c0 c1 c2 (some (addRec m p point cx right bottom cy))
      else
        match c2 with
        | none => .mk v c0 c1 (some (.mk (some p) none none none none)) c3
        | some m => .mk v c0 c1 (some (addRec m p point left cx bottom cy)) c3
    else
      if point.x ≥ cx then
        match c1 with
        | none => .mk v c0 (some (.mk (some p) none none none none)) c2 c3
        | some m => .mk v c0 (some (addRec m p point cx right cy top)) c2 c3
      else
        match c0 with
        | none => .mk v (some (.mk (some p) none none none none)) c1 c2 c3
        | some m => .mk v (some (addRec m p point left cx cy top)) c1 c2 c3

/-- `Add` (`quadtree.go` lines 54-79): a nil reference is a no-op, an
out-of-bounds point is an error, an empty tree gets the entity as its root
value, otherwise the recursive walk places it. -/
def QuadtreeOf.Add [PointerOf α] (q : QuadtreeOf α) (p : Option α) :
    QuadtreeOf α × Option QError :=
  match p with
  | none => (q, none)
  | some e =>
    if ! q.bound.Contains (ptOf e) then (q, some .pointOutsideOfBounds)
    else
      match q.root with
      | none => ({ q with root := some (.mk (some e) none none none none) }, none)
      | some rt =>
        ({ q with root := some (addRec rt e (ptOf e)
            q.bound.min.x q.bound.max.x q.bound.min.y q.bound.max.y) }, none)

/-- Quadrant selection `childIndex` (`quadtree.go` lines 528-539): lower half
(2) when `y ≤ cy`, right half (+1) when `x ≥ cx`. -/
def childIndex (cx cy : ℤ) (point : Pt) : Fin 4 :=
  if point.y ≤ cy then (if point.x ≥ cx then 3 else 2)
  else (if point.x ≥ cx then 1 else 0)

/-- The sub-rectangle handed to child `k` by the traversal (`quadtree.go`
lines 365-373), as `(left, right, bottom, top)`. -/
def childRect : Fin 4 → ℤ → ℤ → ℤ → ℤ → ℤ → ℤ → ℤ × ℤ × ℤ × ℤ
  | ⟨0, _⟩, left, _, _, top, cx, cy => (left, cx, cy, top)
  | ⟨1, _⟩, _, right, _, top, cx, cy => (cx, right, cy, top)
  | ⟨2, _⟩, left, _, bottom, _, cx, cy => (left, cx, bottom, cy)
  | ⟨3, _⟩, _, right, bottom, _, cx, cy => (cx, right, bottom, cy)

/-- The cyclic child-visit order `j = i, i+1, i+2, i+3` taken modulo 4
(`quadtree.go` lines 360-374). -/
def cycleFrom (i : Fin 4) : List (Fin 4) :=
  [i, i + 1, i + 2, i + 3]

/-- The capability object handed to the shared traversal (`visitor`
interface, `quadtree.go` lines 310-321): the current pruning bound, the
guidance point, and the per-value visit action.  The visit action also
receives the visited node's path from the root — the functional stand-in for
the `*node` pointer the Go visitor receives — and returns `none` on a runtime
panic. -/
structure VisitorOps (α σ : Type) where
  bound : σ → BoundOf
  point : σ → Pt
  visitValue : σ → List (Fin 4) → α → Option σ

/-- One iteration of the traversal's child loop (`quadtree.go` lines
360-374): skip an absent child, otherwise recurse (through `visit`, the
traversal at the remaining fuel) into the child's quarter rectangle; a `none`
accumulator (an earlier panic) is propagated. -/
def visitStep (visit : Node α → ℤ → ℤ → ℤ → ℤ → List (Fin 4) → σ → Option σ)
    (n : Node α) (left right bottom top cx cy : ℤ) (path : List (Fin 4))
    (acc : Option σ) (k : Fin 4) : Option σ :=
  match acc with
  | none => none
  | some s2 =>
    match n.child k with
    | none => some s2
    | some m =>
      match childRect k left right bottom top cx cy with
      | (l', r', b', t') => visit m l' r' b' t' (path ++ [k]) s2

/-- The traversal's child loop: fold `visitStep` over the visit order. -/
def visitFold (visit : Node α → ℤ → ℤ → ℤ → ℤ → List (Fin 4) → σ → Option σ)
    (n : Node α) (left right bottom top cx cy : ℤ) (path : List (Fin 4))
    (ks : List (Fin 4)) (s : σ) : Option σ :=
  ks.foldl (visitStep visit n left right bottom top cx cy path) (some s)

/-- The shared pruning walk `(*visit).Visit` (`quadtree.go` lines 335-375).
The extra fuel argument makes the recursion structural; every caller passes
the node count of the tree, which the walk can never exhaust (its recursion
depth is bounded by the node count), so the fuel-out branch is unreachable
and returns the state unchanged. -/
def visitGo (ops : VisitorOps α σ) : ℕ → Node α → ℤ → ℤ → ℤ → ℤ → List (Fin 4) → σ → Option σ
  | 0, _, _, _, _, _, _, s => some s
  | fuel+1, n, left, right, bottom, top, path, s =>
    let b := ops.bound s
    if left > b.max.x ∨ right < b.min.x ∨ bottom > b.max.y ∨ top < b.min.y then some s
    else
      match (match n.value with
             | some v => ops.visitValue s path v
             | none => some s) with
      | none => none
      | some s1 =>
        if (n.child 0).isNone && (n.child 1).isNone && (n.child 2).isNone &&
            (n.child 3).isNone then some s1
        else
          let cx := tdiv2 (left + right)
          let cy := tdiv2 (bottom + top)
          visitFold (visitGo ops fuel) n left right bottom top cx cy path
            (cycleFrom (childIndex cx cy (ops.point s1))) s1

/-- The axis-aligned square of half-width `mathSqrt dsq` around `p`, the
shrunken relevant bound written by the find and nearest visitors
(`quadtree.go` lines 404-408 and 491-495). -/
def shrinkToSquare (p : Pt) (dsq : ℤ) : BoundOf :=
  let d := mathSqrt dsq
  ⟨⟨p.x - d, p.y - d⟩, ⟨p.x + d, p.y + d⟩⟩

/-- The `findVisitor` state (`quadtree.go` lines 377-383).  `closest` stores
the found node's path together with its value (the functional rendition of
the `*node` pointer); `minDistSquared` starts as the `math.MaxOf` sentinel. -/
structure FindState (α : Type) where
  point : Pt
  filter : Option (α → Bool)
  closest : Option (List (Fin 4) × α)
  closestBound : BoundOf
  minDistSquared : Option ℤ

/-- `(*findVisitor).Visit` (`quadtree.go` lines 393-410). -/
def findVisitValue [PointerOf α] (s : FindState α) (path : List (Fin 4)) (v : α) :
    Option (FindState α) :=
  if ! accepts s.filter v then some s
  else
    let d := DistanceSquared (ptOf v) s.point
    if ltSentinel d s.minDistSquared then
      some { s with
        minDistSquared := some d
        closest := some (path, v)
        closestBound := shrinkToSquare s.point d }
    else some s

/-- The find visitor's capability object (`quadtree.go` lines 385-391). -/
def findOps (α : Type) [PointerOf α] : VisitorOps α (FindState α) :=
  ⟨fun s => s.closestBound, fun s => s.point, findVisitValue⟩

/-- `Matching` (`quadtree.go` lines 188-212). -/
def QuadtreeOf.Matching [PointerOf α] (q : QuadtreeOf α) (p : Pt) (f : Option (α → Bool)) :
    Option α :=
  match q.root with
  | none => none
  | some rt =>
    let v0 : FindState α := ⟨p, f, none, q.bound, none⟩
    match visitGo (findOps α) (Node.size rt) rt
        q.bound.min.x q.bound.max.x q.bound.min.y q.bound.max.y [] v0 with
    | none => none
    | some s =>
      match s.closest with
      | none => none
      | some (_, val) => some val

/-- `Find` (`quadtree.go` lines 181-183). -/
def QuadtreeOf.Find [PointerOf α] (q : QuadtreeOf α) (p : Pt) : Option α :=
  q.Matching p none

/-- First child slot, scanning 0-3, holding a node with a present value;
skipped slots are the empty or value-less ones the removal loop discards
(`quadtree.go` lines 148-172). -/
def scanValued : List (Fin 4 × Option (Node α)) → Option (Fin 4 × Node α)
  | [] => none
  | (k, c) :: rest =>
    match c with
    | some m => if m.value.isSome then some (k, m) else scanValued rest
    | none => scanValued rest

/-- First occupied-and-valued child of a node, with its index. -/
def firstValued (n : Node α) : Option (Fin 4 × Node α) :=
  scanValued [(0, n.child 0), (1, n.child 1), (2, n.child 2), (3, n.child 3)]

/-- Set the child slots before `k` to empty: the removal loop has nilled each
occupied but value-less slot it scanned past (`quadtree.go` lines 166-169),
and the slots before the first valued child it stops at are exactly those. -/
def clearBefore (n : Node α) (k : Fin 4) : Node α :=
  match n with
  | .mk v c0 c1 c2 c3 =>
    .mk v (if (0 : Fin 4) < k then none else c0) (if (1 : Fin 4) < k then none else c1)
      (if (2 : Fin 4) < k then none else c2) (if (3 : Fin 4) < k then none else c3)

/-- The removal fix-up `removeNode` (`quadtree.go` lines 147-176): discard the
empty and value-less child slots scanned past, then either clear the node's
value (no occupied child left) or pull the first valued child's value up and
recurse into that child.  As with the traversal, the fuel argument makes the
recursion structural; the recursion descends one level per step, so fuel
equal to the subtree's node count can never run out. -/
def removeNodeF : ℕ → Node α → Node α
  | 0, n => n
  | fuel+1, n =>
    match firstValued n with
    | none => .mk none none none none none
    | some (k, m) => ((clearBefore n k).setValue m.value).setChild k (some (removeNodeF fuel m))

/-- The removal fix-up at its natural fuel. -/
def removeNode (n : Node α) : Node α :=
  removeNodeF (Node.size n) n

/-- The node a path leads to, if the path is valid. -/
def nodeAt : Node α → List (Fin 4) → Option (Node α)
  | n, [] => some n
  | n, k :: ks =>
    match n.child k with
    | none => none
    | some m => nodeAt m ks

/-- Apply `f` to the node at the given path (the functional rendition of
mutating through a `*node` pointer); an invalid path leaves the tree
unchanged, a case the callers never produce. -/
def modifyAt (f : Node α → Node α) : Node α → List (Fin 4) → Node α
  | n, [] => f n
  | n, k :: ks =>
    match n.child k with
    | none => n
    | some m => n.setChild k (some (modifyAt f m ks))

/-- `Remove` (`quadtree.go` lines 115-144): run the find traversal with the
matcher as filter, then fix the tree up at the found node.  When the root is
nil the source still calls `(*visit).Visit` on it, which reads the nil node
unless the prune test fires first; with the bound used both as cell and as
relevant bound that test fires exactly when the bound is improper, so a
proper-bounded empty tree dereferences nil — the `none` result. -/
def QuadtreeOf.Remove [PointerOf α] (q : QuadtreeOf α) (p : α) (eq : Option (α → Bool)) :
    Option (QuadtreeOf α × Bool) :=
  let eqf : α → Bool :=
    match eq with
    | some g => g
    | none => fun pointer => (ptOf p).Equal (ptOf pointer)
  let v0 : FindState α := ⟨ptOf p, some eqf, none, q.bound, none⟩
  match q.root with
  | none =>
    if q.bound.min.x > q.bound.max.x ∨ q.bound.max.x < q.bound.min.x ∨
        q.bound.min.y > q.bound.max.y ∨ q.bound.max.y < q.bound.min.y then some (q, false)
    else none
  | some rt =>
    match visitGo (findOps α) (Node.size rt) rt
        q.bound.min.x q.bound.max.x q.bound.min.y q.bound.max.y [] v0 with
    | none => none
    | some s =>
      match s.closest with
      | none => some (q, false)
      | some (path, _) =>
        some ({ q with root := some (modifyAt removeNode rt path) }, true)

/-- Modelled from the spec: the bounded max-heap of the k-nearest search (its
source file is not under `src/`; the spec describes a fixed-capacity priority
structure keyed by squared distance maintaining the current best-k
candidates).  It is modelled as a list of (entity, squared distance) pairs
kept sorted by descending distance, so the element at index 0 is the greatest
— the current worst kept candidate — as the visitor's `maxHeap[0]` access
expects.  `maxHeapPush` inserts preserving that order. -/
def maxHeapPush : List (α × ℤ) → α → ℤ → List (α × ℤ)
  | [], v, d => [(v, d)]
  | x :: rest, v, d => if d > x.2 then (v, d) :: x :: rest else x :: maxHeapPush rest v d

/-- Modelled from the spec: `maxHeap.Pop` removes and returns the greatest
element; popping an empty heap indexes out of range in the source, the `none`
case. -/
def maxHeapPop : List (α × ℤ) → Option ((α × ℤ) × List (α × ℤ))
  | [] => none
  | x :: rest => some (x, rest)

/-- The `nearestVisitor` state (`quadtree.go` lines 454-461). -/
structure NearState (α : Type) where
  point : Pt
  filter : Option (α → Bool)
  k : ℤ
  maxHeap : List (α × ℤ)
  closestBound : BoundOf
  maxDistSquared : Option ℤ

/-- `(*nearestVisitor).Visit` (`quadtree.go` lines 471-498): push a passing
candidate below the threshold; when the heap exceeds `k` entries pop the
worst and read the new top — `v.maxHeap[0]` — to tighten the threshold and
the relevant bound.  Reading the top of an emptied heap (which happens for
`k = 0`) is an index panic: `none`. -/
def nearVisitValue [PointerOf α] (s : NearState α) (_path : List (Fin 4)) (v : α) :
    Option (NearState α) :=
  if ! accepts s.filter v then some s
  else
    let d := DistanceSquared (ptOf v) s.point
    if ltSentinel d s.maxDistSquared then
      let h1 := maxHeapPush s.maxHeap v d
      if (h1.length : ℤ) > s.k then
        match maxHeapPop h1 with
        | none => none
        | some (_, h2) =>
          match h2.head? with
          | none => none
          | some top =>
            some { s with
              maxHeap := h2
              maxDistSquared := some top.2
              closestBound := shrinkToSquare s.point top.2 }
      else some { s with maxHeap := h1 }
    else some s

/-- The nearest visitor's capability object (`quadtree.go` lines 463-469). -/
def nearOps (α : Type) [PointerOf α] : VisitorOps α (NearState α) :=
  ⟨fun s => s.closestBound, fun s => s.point, nearVisitValue⟩

/-- The nearest visitor's initial state (`quadtree.go` lines 234-246): the
relevant bound starts as the tree's bound, the threshold as the `math.MaxOf`
sentinel unless a maximum distance is supplied, in which case it is that
distance squared. -/
def initNearest (bound : BoundOf) (p : Pt) (k : ℤ) (f : Option (α → Bool))
    (maxDistance : Option ℤ) : NearState α :=
  let base : NearState α := ⟨p, f, k, [], bound, none⟩
  match maxDistance with
  | none => base
  | some md => { base with maxDistSquared := some (md * md) }

/-- The repack loop (`quadtree.go` lines 255-266) fills the buffer from its
last index down with successive pops of the greatest remaining element; for
the sorted-list heap model that is the reversed list of stored entities.  The
optional caller buffer only donates slice capacity and never affects the
contents, so it is not a parameter here. -/
def repack (h : List (α × ℤ)) : List α :=
  (h.map Prod.fst).reverse

/-- `KNearestMatching` (`quadtree.go` lines 229-267). -/
def QuadtreeOf.KNearestMatching [PointerOf α] (q : QuadtreeOf α) (p : Pt) (k : ℤ)
    (f : Option (α → Bool)) (maxDistance : Option ℤ) : Option (List α) :=
  match q.root with
  | none => some []
  | some rt =>
    let v0 : NearState α := initNearest q.bound p k f maxDistance
    match visitGo (nearOps α) (Node.size rt) rt
        q.bound.min.x q.bound.max.x q.bound.min.y q.bound.max.y [] v0 with
    | none => none
    | some s => some (repack s.maxHeap)

/-- `KNearest` (`quadtree.go` lines 219-221). -/
def QuadtreeOf.KNearest [PointerOf α] (q : QuadtreeOf α) (p : Pt) (k : ℤ)
    (maxDistance : Option ℤ) : Option (List α) :=
  q.KNearestMatching p k none maxDistance

/-- The `inBoundVisitor` state (`quadtree.go` lines 500-504). -/
structure InBoundState (α : Type) where
  bound : BoundOf
  pointers : List α
  filter : Option (α → Bool)

/-- `(*inBoundVisitor).Visit` (`quadtree.go` lines 514-526). -/
def inBoundVisitValue [PointerOf α] (s : InBoundState α) (_path : List (Fin 4)) (v : α) :
    Option (InBoundState α) :=
  if ! accepts s.filter v then some s
  else
    let p := ptOf v
    if s.bound.min.x > p.x ∨ s.bound.max.x < p.x ∨ s.bound.min.y > p.y ∨ s.bound.max.y < p.y
      then some s
    else some { s with pointers := s.pointers ++ [v] }

/-- The in-bound visitor's capability object (`quadtree.go` lines 506-512);
its guidance point is the zero value. -/
def inBoundOps (α : Type) [PointerOf α] : VisitorOps α (InBoundState α) :=
  ⟨fun s => s.bound, fun _ => ⟨0, 0⟩, inBoundVisitValue⟩

/-- `InBoundMatching` (`quadtree.go` lines 281-304).  The optional caller
buffer only donates slice capacity (the source truncates it to length zero
before collecting), so it is not a parameter here. -/
def QuadtreeOf.InBoundMatching [PointerOf α] (q : QuadtreeOf α) (b : BoundOf)
    (f : Option (α → Bool)) : Option (List α) :=
  match q.root with
  | none => some []
  | some rt =>
    let v0 : InBoundState α := ⟨b, [], f⟩
    match visitGo (inBoundOps α) (Node.size rt) rt
        q.bound.min.x q.bound.max.x q.bound.min.y q.bound.max.y [] v0 with
    | none => none
    | some s => some s.pointers

/-- `InBound` (`quadtree.go` lines 273-275). -/
def QuadtreeOf.InBound [PointerOf α] (q : QuadtreeOf α) (b : BoundOf) : Option (List α) :=
  q.InBoundMatching b none

/-- Weak membership of a point in a cell rectangle. -/
def inRectW (p : Pt) (left right bottom top : ℤ) : Bool :=
  decide (left ≤ p.x) && decide (p.x ≤ right) && decide (bottom ≤ p.y) && decide (p.y ≤ top)

/-- The geometric well-formedness the insertion routing establishes for an
optional subtree in a cell: every stored value lies (weakly) in the cell of
the node storing it, cells being subdivided exactly as `add` and the
traversal subdivide them. -/
def nodeWF [PointerOf α] : Node α → ℤ → ℤ → ℤ → ℤ → Bool
  | .mk v c0 c1 c2 c3, left, right, bottom, top =>
    (match v with
     | some e => inRectW (ptOf e) left right bottom top
     | none => true) &&
    (let cx := tdiv2 (left + right)
     let cy := tdiv2 (bottom + top)
     (match c0 with | none => true | some m => nodeWF m left cx cy top) &&
     (match c1 with | none => true | some m => nodeWF m cx right cy top) &&
     (match c2 with | none => true | some m => nodeWF m left cx bottom cy) &&
     (match c3 with | none => true | some m => nodeWF m cx right bottom cy))

/-- Well-formedness of an optional node in a cell. -/
def owf [PointerOf α] (o : Option (Node α)) (left right bottom top : ℤ) : Bool :=
  match o with
  | none => true
  | some m => nodeWF m left right bottom top

/-- Well-formedness of a quadtree: a nonempty tree has a proper universe
bound (an out-of-bounds check has succeeded at least once) and a well-formed
root in the universe cell.  Every tree reachable through `New`, `Add` and
`Remove` satisfies this. -/
def QuadtreeOf.WF [PointerOf α] (q : QuadtreeOf α) : Bool :=
  match q.root with
  | none => true
  | some rt =>
    decide (q.bound.min.x ≤ q.bound.max.x) && decide (q.bound.min.y ≤ q.bound.max.y) &&
    nodeWF rt q.bound.min.x q.bound.max.x q.bound.min.y q.bound.max.y

/-- Values currently stored in the index. -/
def QuadtreeOf.contentsList (q : QuadtreeOf α) : List α :=
  match q.root with
  | none => []
  | some rt => rt.contentsList

/-- Values currently stored in the index, as a multiset. -/
def QuadtreeOf.contentsM (q : QuadtreeOf α) : Multiset α :=
  ↑q.contentsList

/-- Whether every node of a subtree holds a value. -/
def Node.allValued : Node α → Bool
  | .mk v c0 c1 c2 c3 =>
    v.isSome && (match c0 with | none => true | some m => m.allValued)
      && (match c1 with | none => true | some m => m.allValued)
      && (match c2 with | none => true | some m => m.allValued)
      && (match c3 with | none => true | some m => m.allValued)

/-- Whether every node of an optional subtree holds a value. -/
def oAllValued (o : Option (Node α)) : Bool :=
  match o with
  | none => true
  | some m => m.allValued

/-- Trees built by `New` followed by `Add` calls only. -/
inductive AddReach [PointerOf α] : QuadtreeOf α → Prop where
  | new (b : BoundOf) : AddReach (QuadtreeOf.New b)
  | add {q : QuadtreeOf α} (p : Option α) : AddReach q → AddReach (q.Add p).1

/-- The multiset an in-bounds `Add` contributes: the inserted entity on
success, nothing for a nil reference or an out-of-bounds failure. -/
def trackAdd [PointerOf α] (q : QuadtreeOf α) (p : Option α) : Multiset α :=
  match p with
  | none => 0
  | some e => if q.bound.Contains (ptOf e) then {e} else 0

/-- The value the find traversal run by `Remove` locates, if any: the stored
entity, accepted by the matcher, closest to the target's point. -/
def removedOf [PointerOf α] (q : QuadtreeOf α) (p : α) (eq : Option (α → Bool)) :
    Multiset α :=
  let eqf : α → Bool :=
    match eq with
    | some g => g
    | none => fun pointer => (ptOf p).Equal (ptOf pointer)
  match q.root with
  | none => 0
  | some rt =>
    let v0 : FindState α := ⟨ptOf p, some eqf, none, q.bound, none⟩
    match visitGo (findOps α) (Node.size rt) rt
        q.bound.min.x q.bound.max.x q.bound.min.y q.bound.max.y [] v0 with
    | none => 0
    | some s =>
      match s.closest with
      | none => 0
      | some (_, v) => {v}

/-- Index states reachable by a completed (panic-free) sequence of `Add` and
`Remove` calls, paired with the reference multiset of entities successfully
added and not since removed. -/
inductive Tracked [PointerOf α] [DecidableEq α] : QuadtreeOf α → Multiset α → Prop where
  | new (b : BoundOf) : Tracked (QuadtreeOf.New b) 0
  | add {q : QuadtreeOf α} {S : Multiset α} (p : Option α) :
      Tracked q S → Tracked (q.Add p).1 (S + trackAdd q p)
  | remove {q q' : QuadtreeOf α} {S : Multiset α} {r : Bool} (p : α)
      (eq : Option (α → Bool)) :
      Tracked q S → q.Remove p eq = some (q', r) → Tracked q' (S - removedOf q p eq)

/-- The index over the sample bound after `Add (5,5)`, `Add (1,1)`, and a
successful `Remove (1,1)`: the root holds (5,5) and keeps a value-less leaf
in quadrant 2. -/
def sampleAfterRemove1 : QuadtreeOf Pt :=
  match (((QuadtreeOf.New ⟨⟨0, 0⟩, ⟨10, 10⟩⟩).Add (some ⟨5, 5⟩)).1.Add
      (some ⟨1, 1⟩)).1.Remove ⟨1, 1⟩ none with
  | some (q, _) => q
  | none => QuadtreeOf.New ⟨⟨0, 0⟩, ⟨10, 10⟩⟩

/-- The same index after re-adding (1,1) — which lands below the value-less
leaf — and then removing (5,5). -/
def sampleDropped : QuadtreeOf Pt :=
  match (sampleAfterRemove1.Add (some ⟨1, 1⟩)).1.Remove ⟨5, 5⟩ none with
  | some (q, _) => q
  | none => QuadtreeOf.New ⟨⟨0, 0⟩, ⟨10, 10⟩⟩

/-- The cell `(l, r, b, t)` lies inside the universe rectangle `U` and is
proper.  Every cell the traversal derives from the universe satisfies this. -/
def cellWithin (U : BoundOf) (l r b t : ℤ) : Prop :=
  U.min.x ≤ l ∧ l ≤ r ∧ r ≤ U.max.x ∧ U.min.y ≤ b ∧ b ≤ t ∧ t ≤ U.max.y

/-- Threshold order: every distance below `o1` is also below `o2`
(`o1` is at most `o2`, with `none` the `math.MaxOf` sentinel at the top). -/
def sentinelLE (o1 o2 : Option ℤ) : Prop :=
  ∀ d : ℤ, ltSentinel d o1 = true → ltSentinel d o2 = true

/-- Invariant of the find visitor's state during a traversal of the tree
rooted at `rt` with universe bound `U`, query point `p` and filter `f`:
either nothing has been found (threshold still the sentinel, relevant bound
still the universe), or `closest` holds the path to a node of `rt` whose
value realizes the threshold, passes the filter, and whose relevant bound
covers every strictly closer point. -/
def FindInv [PointerOf α] (rt : Node α) (U : BoundOf) (p : Pt)
    (f : Option (α → Bool)) (s : FindState α) : Prop :=
  s.point = p ∧ s.filter = f ∧
  match s.closest, s.minDistSquared with
  | none, none => s.closestBound = U
  | some (path, v), some m =>
      (∃ nd : Node α, nodeAt rt path = some nd ∧ nd.value = some v) ∧
      accepts f v = true ∧
      DistanceSquared (ptOf v) p = m ∧
      ∀ qv : Pt, DistanceSquared qv p < m → s.closestBound.Contains qv = true
  | _, _ => False

/-- Invariant of the nearest visitor's state for the bounded/sorted result
properties: the heap never exceeds k entries, is kept sorted by descending
distance, and every entry records the squared distance of its own entity to
the query point. -/
def NearInv [PointerOf α] (p : Pt) (f : Option (α → Bool)) (k : ℤ)
    (s : NearState α) : Prop :=
  s.point = p ∧ s.filter = f ∧ s.k = k ∧
  (s.maxHeap.length : ℤ) ≤ k ∧
  List.Pairwise (fun a b => b.2 ≤ a.2) s.maxHeap ∧
  ∀ e ∈ s.maxHeap, e.2 = DistanceSquared (ptOf e.1) p

/-- The recursion obligations for a child subtree during a traversal: enough
fuel, well-formed in its quarter cell, quarter cell inside the universe, and
addressed by the extended path. -/
def KidOK [PointerOf α] (rt : Node α) (U : BoundOf) (fuel : ℕ) (n : Node α)
    (l r b t cx cy : ℤ) (path : List (Fin 4)) (k : Fin 4) (m : Node α) : Prop :=
  match childRect k l r b t cx cy with
  | (l', r', b', t') =>
    Node.size m ≤ fuel ∧ nodeWF m l' r' b' t' = true ∧ cellWithin U l' r' b' t' ∧
    nodeAt rt (path ++ [k]) = some m

/-- The universe rectangle used by the concrete examples. -/
def sampleBound : BoundOf :=
  ⟨⟨0, 0⟩, ⟨10, 10⟩⟩

/-- An index holding the single entity (1,1). -/
def sampleTree1 : QuadtreeOf Pt :=
  ((QuadtreeOf.New sampleBound).Add (some ⟨1, 1⟩)).1

/-- An index holding the entities (2,3) and (7,7). -/
def sampleTree2 : QuadtreeOf Pt :=
  ((sampleTree1.Add (some ⟨2, 3⟩)).1.Add (some ⟨7, 7⟩)).1

/-- The four-point index of the spec's walkthrough scenario:
(1,1), (9,9), (5,5), (1,9) inside (0,0)-(10,10). -/
def sampleTree4 : QuadtreeOf Pt :=
  (((((QuadtreeOf.New sampleBound).Add (some ⟨1, 1⟩)).1.Add
      (some ⟨9, 9⟩)).1.Add (some ⟨5, 5⟩)).1.Add (some ⟨1, 9⟩)).1

theorem contains_iff (b : BoundOf) (p : Pt) :
    b.Contains p = true ↔
      b.min.x ≤ p.x ∧ p.x ≤ b.max.x ∧ b.min.y ≤ p.y ∧ p.y ≤ b.max.y := by
  unfold BoundOf.Contains
  by_cases h1 : (p.y < b.min.y ∨ b.max.y < p.y) <;>
    by_cases h2 : (p.x < b.min.x ∨ b.max.x < p.x) <;> simp [h1, h2] <;> omega

theorem tdiv2_between {l r : ℤ} (h : l ≤ r) :
    l ≤ tdiv2 (l + r) ∧ tdiv2 (l + r) ≤ r := by
  unfold tdiv2; split <;> omega

theorem size_mk (v : Option α) (c0 c1 c2 c3 : Option (Node α)) :
    Node.size (Node.mk v c0 c1 c2 c3) =
      1 + Node.osize c0 + Node.osize c1 + Node.osize c2 + Node.osize c3 := by
  cases c0 <;> cases c1 <;> cases c2 <;> cases c3 <;> rfl

theorem osize_some (m : Node α) : Node.osize (some m) = Node.size m := rfl

theorem child_osize_lt (n : Node α) (k : Fin 4) :
    Node.osize (n.child k) < Node.size n := by
  obtain ⟨v, c0, c1, c2, c3⟩ := n
  obtain ⟨kv, hk⟩ := k
  interval_cases kv <;> cases c0 <;> cases c1 <;> cases c2 <;> cases c3 <;>
    simp [Node.child, Node.size, Node.osize] <;> omega

theorem child_size_lt {n : Node α} {k : Fin 4} {m : Node α}
    (h : n.child k = some m) : Node.size m < Node.size n := by
  have := child_osize_lt n k
  rw [h] at this
  exact this

theorem scanValued_mem {l : List (Fin 4 × Option (Node α))} {k : Fin 4} {m : Node α}
    (h : scanValued l = some (k, m)) : (k, some m) ∈ l := by
  induction l with
  | nil => simp [scanValued] at h
  | cons hd tl ih =>
    obtain ⟨k', c⟩ := hd
    cases c with
    | none =>
      simp only [scanValued] at h
      exact List.mem_cons_of_mem _ (ih h)
    | some m' =>
      simp only [scanValued] at h
      by_cases hv : m'.value.isSome
      · simp only [hv, if_pos, Option.some.injEq, Prod.mk.injEq] at h
        obtain ⟨hk, hm⟩ := h
        subst hk; subst hm
        exact List.mem_cons_self _ _
      · simp only [hv, if_neg, Bool.false_eq_true, if_false] at h
        exact List.mem_cons_of_mem _ (ih h)

theorem firstValued_child {n : Node α} {k : Fin 4} {m : Node α}
    (h : firstValued n = some (k, m)) : n.child k = some m := by
  have hmem := scanValued_mem h
  simp only [firstValued, List.mem_cons, List.not_mem_nil, or_false] at hmem
  rcases hmem with h0 | h0 | h0 | h0 <;>
    (rw [Prod.mk.injEq] at h0; obtain ⟨hk, hm⟩ := h0; subst hk; exact hm.symm)

theorem firstValued_size_lt {n : Node α} {k : Fin 4} {m : Node α}
    (h : firstValued n = some (k, m)) : Node.size m < Node.size n :=
  child_size_lt (firstValued_child h)

theorem node_size_induction {P : Node α → Prop}
    (ih : ∀ n : Node α, (∀ m : Node α, Node.size m < Node.size n → P m) → P n) :
    ∀ n, P n := by
  have key : ∀ N : ℕ, ∀ n : Node α, Node.size n ≤ N → P n := by
    intro N
    induction N with
    | zero =>
      intro n hn
      exact ih n (fun m hm => absurd (Nat.lt_of_lt_of_le hm hn) (Nat.not_lt_zero _))
    | succ N IH =>
      intro n hn
      exact ih n (fun m hm => IH m (by omega))
  exact fun n => key (Node.size n) n le_rfl

theorem add_err_iff_not_contains [PointerOf α] (q : QuadtreeOf α) (e : α) :
    (q.Add (some e)).2 = some QError.pointOutsideOfBounds ↔
      q.bound.Contains (ptOf e) = false := by
  unfold QuadtreeOf.Add
  cases hc : q.bound.Contains (ptOf e) <;> cases q.root <;> simp [hc]

theorem addRec_child_untouched [PointerOf α] (n : Node α) (e : α) (point : Pt)
    (l r b t : ℤ) (k : Fin 4)
    (hk : k ≠ childIndex (tdiv2 (l + r)) (tdiv2 (b + t)) point) :
    (addRec n e point l r b t).child k = n.child k := by
  obtain ⟨v, c0, c1, c2, c3⟩ := n
  obtain ⟨kv, hklt⟩ := k
  unfold addRec childIndex at *
  by_cases h1 : point.y ≤ tdiv2 (b + t) <;> by_cases h2 : point.x ≥ tdiv2 (l + r) <;>
    simp only [h1, h2, if_true, if_false] at hk ⊢ <;>
    cases c0 <;> cases c1 <;> cases c2 <;> cases c3 <;> interval_cases kv <;>
    first
      | rfl
      | exact absurd rfl hk

theorem allValued_mk (v : Option α) (c0 c1 c2 c3 : Option (Node α)) :
    Node.allValued (Node.mk v c0 c1 c2 c3) =
      (v.isSome && oAllValued c0 && oAllValued c1 && oAllValued c2 && oAllValued c3) := by
  cases c0 <;> cases c1 <;> cases c2 <;> cases c3 <;> rfl

theorem oAllValued_some (n : Node α) : oAllValued (some n) = n.allValued := rfl

theorem addRec_allValued [PointerOf α] :
    ∀ n : Node α, ∀ (e : α) (point : Pt) (l r b t : ℤ),
      n.allValued = true → (addRec n e point l r b t).allValued = true := by
  refine node_size_induction ?_
  intro n IH e point l r b t hav
  obtain ⟨v, c0, c1, c2, c3⟩ := n
  rw [allValued_mk] at hav
  unfold addRec
  by_cases h1 : point.y ≤ tdiv2 (b + t) <;> by_cases h2 : point.x ≥ tdiv2 (l + r) <;>
    simp only [h1, h2, if_true, if_false]
  · cases hc : c3 with
    | none => rw [allValued_mk]; simp_all [oAllValued]; rfl
    | some m =>
      rw [allValued_mk, oAllValued_some]
      have hsz : Node.size m < Node.size (Node.mk v c0 c1 c2 c3) := by
        rw [size_mk, hc, osize_some]; omega
      have hmv : m.allValued = true := by
        subst hc; rw [oAllValued_some] at hav; simp_all
      simp_all [IH m hsz e point (tdiv2 (l + r)) r b (tdiv2 (b + t)) hmv]
  · cases hc : c2 with
    | none => rw [allValued_mk]; simp_all [oAllValued]; rfl
    | some m =>
      rw [allValued_mk, oAllValued_some]
      have hsz : Node.size m < Node.size (Node.mk v c0 c1 c2 c3) := by
        rw [size_mk, hc, osize_some]; omega
      have hmv : m.allValued = true := by
        subst hc; rw [oAllValued_some] at hav; simp_all
      simp_all [IH m hsz e point l (tdiv2 (l + r)) b (tdiv2 (b + t)) hmv]
  · cases hc : c1 with
    | none => rw [allValued_mk]; simp_all [oAllValued]; rfl
    | some m =>
      rw [allValued_mk, oAllValued_some]
      have hsz : Node.size m < Node.size (Node.mk v c0 c1 c2 c3) := by
        rw [size_mk, hc, osize_some]; omega
      have hmv : m.allValued = true := by
        subst hc; rw [oAllValued_some] at hav; simp_all
      simp_all [IH m hsz e point (tdiv2 (l + r)) r (tdiv2 (b + t)) t hmv]
  · cases hc : c0 with
    | none => rw [allValued_mk]; simp_all [oAllValued]; rfl
    | some m =>
      rw [allValued_mk, oAllValued_some]
      have hsz : Node.size m < Node.size (Node.mk v c0 c1 c2 c3) := by
        rw [size_mk, hc, osize_some]; omega
      have hmv : m.allValued = true := by
        subst hc; rw [oAllValued_some] at hav; simp_all
      simp_all [IH m hsz e point l (tdiv2 (l + r)) (tdiv2 (b + t)) t hmv]

/-- C3: `Add` returns the out-of-bounds error exactly when the entity's point
lies strictly outside the universe rectangle — points on the rectangle's edge
are inside, because `Contains` is inclusive, and succeed — and `Add` of a nil
reference returns success and leaves the index unchanged. -/
theorem add_out_of_bounds_characterization [PointerOf α] (q : QuadtreeOf α) (e : α) :
    ((q.Add (some e)).2 = some QError.pointOutsideOfBounds ↔
      ((ptOf e).x < q.bound.min.x ∨ q.bound.max.x < (ptOf e).x ∨
       (ptOf e).y < q.bound.min.y ∨ q.bound.max.y < (ptOf e).y)) ∧
    q.Add none = (q, none) := by
  refine ⟨?_, rfl⟩
  rw [add_err_iff_not_contains]
  constructor
  · intro h
    have hnc : ¬(q.bound.Contains (ptOf e) = true) := by simp [h]
    rw [contains_iff] at hnc
    omega
  · intro h
    cases hc : q.bound.Contains (ptOf e) with
    | false => rfl
    | true =>
      rw [contains_iff] at hc
      omega

/-- C9: whenever `Add` fails with the out-of-bounds error, or is handed a nil
reference, the index — universe bound and root tree structure alike — is
exactly what it was before the call. -/
theorem add_failure_atomic [PointerOf α] (q : QuadtreeOf α) (p : Option α)
    (h : (q.Add p).2 = some QError.pointOutsideOfBounds ∨ p = none) :
    (q.Add p).1 = q := by
  cases p with
  | none => rfl
  | some e =>
    cases hc : q.bound.Contains (ptOf e) with
    | false => unfold QuadtreeOf.Add; simp [hc]
    | true =>
      rcases h with h | h
      · unfold QuadtreeOf.Add at h
        rcases hr : q.root with _ | rt <;> simp [hc, hr] at h
      · cases h

theorem add_failure_atomic_witness :
    ((sampleTree1.Add (some (⟨11, 0⟩ : Pt))).2 = some QError.pointOutsideOfBounds ∨
      (some (⟨11, 0⟩ : Pt) : Option Pt) = none) ∧
    (sampleTree1.Add (some (⟨11, 0⟩ : Pt))).1 = sampleTree1 :=
  ⟨Or.inl (by decide), add_failure_atomic sampleTree1 (some ⟨11, 0⟩) (Or.inl (by decide))⟩

/-- C8: the quadrant picked for a point — index 2 or 3, the lower half,
exactly when its y-coordinate is at most the cell center's, and an odd index
(1 or 3), the right half, exactly when its x-coordinate is at least the cell
center's — so y-ties go down and x-ties go right; insertion descends by the
same rule: `addRec` leaves every child slot other than `childIndex`'s
untouched. -/
theorem child_index_tie_break [PointerOf α] (cx cy : ℤ) (point : Pt) :
    ((childIndex cx cy point = 2 ∨ childIndex cx cy point = 3) ↔ point.y ≤ cy) ∧
    ((childIndex cx cy point = 1 ∨ childIndex cx cy point = 3) ↔ cx ≤ point.x) ∧
    (∀ (n : Node α) (e : α) (l r b t : ℤ) (k : Fin 4),
      (addRec n e point l r b t).child k = n.child k ∨
        k = childIndex (tdiv2 (l + r)) (tdiv2 (b + t)) point) := by
  refine ⟨?_, ?_, ?_⟩
  · unfold childIndex
    by_cases h1 : point.y ≤ cy <;> by_cases h2 : point.x ≥ cx <;>
      simp [h1, h2] <;> first | decide | (intro h; exact absurd h (by decide))
  · unfold childIndex
    by_cases h1 : point.y ≤ cy <;> by_cases h2 : point.x ≥ cx <;>
      simp [h1, h2] <;> first | assumption | (intro h; omega) | decide
  · intro n e l r b t k
    by_cases hk : k = childIndex (tdiv2 (l + r)) (tdiv2 (b + t)) point
    · exact Or.inr hk
    · exact Or.inl (addRec_child_untouched n e point l r b t k hk)

/-- C7 counterexample: calling the k-nearest search with maximum radius 1
around (5,5) seeds the threshold with the radius squared but leaves the
relevant bound at the whole universe rectangle (0,0)-(10,10), which is not
the square (4,4)-(6,6) around the query point the claim requires. -/
theorem knearest_radius_bound_cex :
    (initNearest ⟨⟨0, 0⟩, ⟨10, 10⟩⟩ ⟨5, 5⟩ 2 (none : Option (Pt → Bool))
        (some 1)).maxDistSquared = some 1 ∧
    (initNearest ⟨⟨0, 0⟩, ⟨10, 10⟩⟩ ⟨5, 5⟩ 2 (none : Option (Pt → Bool))
        (some 1)).closestBound = ⟨⟨0, 0⟩, ⟨10, 10⟩⟩ ∧
    (⟨⟨0, 0⟩, ⟨10, 10⟩⟩ : BoundOf) ≠ ⟨⟨4, 4⟩, ⟨6, 6⟩⟩ :=
  ⟨rfl, rfl, by decide⟩

/-- C7 (amended): a supplied maximum search radius seeds the pruning
threshold to the radius squared before traversal begins, but the relevant
bound is initialized to the tree's universe rectangle, not to the square
around the query point — it first shrinks only inside the visitor once the
heap exceeds k entries. -/
theorem knearest_radius_seeds_threshold (bound : BoundOf) (p : Pt) (k : ℤ)
    (f : Option (α → Bool)) (r : ℤ) :
    (initNearest bound p k f (some r)).maxDistSquared = some (r * r) ∧
    (initNearest bound p k f (some r)).closestBound = bound ∧
    (initNearest bound p k f (some r)).maxHeap = [] :=
  ⟨rfl, rfl, rfl⟩

/-- C6 (code bug): `KNearest(p, 0)` on a tree holding an entity does not
return an empty result — the visitor pushes the entity, pops it again because
the heap exceeds k = 0 entries, and then reads `maxHeap[0]` of the emptied
heap, an out-of-range index panic (`none`). -/
theorem knearest_zero_nonempty_panics :
    sampleTree1.KNearest ⟨0, 0⟩ 0 none = none ∧ sampleTree1.contentsList = [⟨1, 1⟩] :=
  ⟨rfl, rfl⟩

/-- C5 (code bug): `Remove` on an empty tree with a proper universe bound
panics instead of returning `false`: the source hands the nil root to the
traversal, whose prune test cannot fire for a proper bound, so the nil node's
value field is read (`none`). -/
theorem remove_empty_tree_panics :
    (QuadtreeOf.New sampleBound : QuadtreeOf Pt).Remove ⟨3, 3⟩ none = none := rfl

/-- C10: in an index built by `New` followed by `Add` calls only, every node
present in the tree holds an entity value. -/
theorem add_only_all_valued [PointerOf α] {q : QuadtreeOf α} (h : AddReach q) :
    ∀ rt : Node α, q.root = some rt → rt.allValued = true := by
  induction h with
  | new b =>
    intro rt hrt
    simp [QuadtreeOf.New] at hrt
  | add p hq ih =>
    intro rt hrt
    rename_i q'
    cases p with
    | none => exact ih rt hrt
    | some e =>
      cases hc : q'.bound.Contains (ptOf e) with
      | false =>
        have heq : (q'.Add (some e)).1 = q' :=
          add_failure_atomic q' (some e)
            (Or.inl ((add_err_iff_not_contains q' e).mpr hc))
        rw [heq] at hrt
        exact ih rt hrt
      | true =>
        cases hr : q'.root with
        | none =>
          have h2 : (q'.Add (some e)).1.root =
              some (Node.mk (some e) none none none none) := by
            unfold QuadtreeOf.Add; simp [hc, hr]
          rw [h2, Option.some.injEq] at hrt
          subst hrt
          rfl
        | some rt0 =>
          have h2 : (q'.Add (some e)).1.root = some (addRec rt0 e (ptOf e)
              q'.bound.min.x q'.bound.max.x q'.bound.min.y q'.bound.max.y) := by
            unfold QuadtreeOf.Add; simp [hc, hr]
          rw [h2, Option.some.injEq] at hrt
          subst hrt
          exact addRec_allValued rt0 e (ptOf e) _ _ _ _ (ih rt0 hr)

theorem add_only_all_valued_witness :
    (Node.mk (some (⟨1, 1⟩ : Pt)) none none none none).allValued = true := by
  have h : ((QuadtreeOf.New sampleBound).Add (some (⟨1, 1⟩ : Pt))).1.root =
      some (Node.mk (some (⟨1, 1⟩ : Pt)) none none none none) := rfl
  exact add_only_all_valued
    (AddReach.add (some (⟨1, 1⟩ : Pt)) (AddReach.new sampleBound))
    (Node.mk (some (⟨1, 1⟩ : Pt)) none none none none) h

theorem ltSentinel_some_iff (d m : ℤ) : ltSentinel d (some m) = true ↔ d < m := by
  simp [ltSentinel]

theorem ltSentinel_none (d : ℤ) : ltSentinel d none = true := rfl

theorem sentinelLE_refl (o : Option ℤ) : sentinelLE o o :=
  fun _ h => h

theorem sentinelLE_trans {a b c : Option ℤ} (h1 : sentinelLE a b) (h2 : sentinelLE b c) :
    sentinelLE a c :=
  fun d hd => h2 d (h1 d hd)

theorem ltSentinel_false_mono {o1 o2 : Option ℤ} {d : ℤ} (hle : sentinelLE o2 o1)
    (h1 : ltSentinel d o1 = false) : ltSentinel d o2 = false := by
  cases h2 : ltSentinel d o2 with
  | false => rfl
  | true => rw [hle d h2] at h1; cases h1

theorem inRectW_iff (p : Pt) (l r b t : ℤ) :
    inRectW p l r b t = true ↔ l ≤ p.x ∧ p.x ≤ r ∧ b ≤ p.y ∧ p.y ≤ t := by
  simp [inRectW, and_assoc]

theorem size_pos (n : Node α) : 0 < Node.size n := by
  obtain ⟨v, c0, c1, c2, c3⟩ := n
  rw [size_mk]
  omega

theorem contents_mk (v : Option α) (c0 c1 c2 c3 : Option (Node α)) :
    Node.contentsList (Node.mk v c0 c1 c2 c3) =
      v.toList ++ Node.ocontents c0 ++ Node.ocontents c1 ++ Node.ocontents c2 ++
        Node.ocontents c3 := by
  cases c0 <;> cases c1 <;> cases c2 <;> cases c3 <;> simp [Node.contentsList, Node.ocontents]

theorem mem_contents_mk {x : α} {v : Option α} {c0 c1 c2 c3 : Option (Node α)} :
    x ∈ Node.contentsList (Node.mk v c0 c1 c2 c3) ↔
      v = some x ∨ ∃ k : Fin 4, x ∈ Node.ocontents ((Node.mk v c0 c1 c2 c3).child k) := by
  rw [contents_mk]
  simp only [List.mem_append, Option.mem_toList, Option.mem_def]
  constructor
  · rintro ((((h | h) | h) | h) | h)
    · exact Or.inl h
    · exact Or.inr ⟨0, h⟩
    · exact Or.inr ⟨1, h⟩
    · exact Or.inr ⟨2, h⟩
    · exact Or.inr ⟨3, h⟩
  · rintro (h | ⟨⟨kv, hk⟩, h⟩)
    · exact Or.inl (Or.inl (Or.inl (Or.inl h)))
    · interval_cases kv
      · exact Or.inl (Or.inl (Or.inl (Or.inr h)))
      · exact Or.inl (Or.inl (Or.inr h))
      · exact Or.inl (Or.inr h)
      · exact Or.inr h

theorem nodeWF_mk [PointerOf α] (v : Option α) (c0 c1 c2 c3 : Option (Node α))
    (l r b t : ℤ) :
    nodeWF (Node.mk v c0 c1 c2 c3) l r b t =
      ((match v with | some e => inRectW (ptOf e) l r b t | none => true) &&
       (owf c0 l (tdiv2 (l + r)) (tdiv2 (b + t)) t &&
        owf c1 (tdiv2 (l + r)) r (tdiv2 (b + t)) t &&
        owf c2 l (tdiv2 (l + r)) b (tdiv2 (b + t)) &&
        owf c3 (tdiv2 (l + r)) r b (tdiv2 (b + t)))) := by
  cases v <;> cases c0 <;> cases c1 <;> cases c2 <;> cases c3 <;> rfl

theorem mem_cycleFrom (i k : Fin 4) : k ∈ cycleFrom i := by
  revert i k
  decide

theorem nodeAt_child {rt n m : Node α} {path : List (Fin 4)} {k : Fin 4}
    (hp : nodeAt rt path = some n) (hc : n.child k = some m) :
    nodeAt rt (path ++ [k]) = some m := by
  induction path generalizing rt with
  | nil =>
    simp only [nodeAt] at hp
    injection hp with hp
    subst hp
    simp [nodeAt, hc]
  | cons j rest ih =>
    simp only [nodeAt] at hp ⊢
    cases hj : rt.child j with
    | none => rw [hj] at hp; cases hp
    | some m0 =>
      rw [hj] at hp
      have hp' : nodeAt m0 rest = some n := hp
      show nodeAt m0 (rest ++ [k]) = some m
      exact ih hp'

theorem nodeAt_value_mem {rt nd : Node α} {path : List (Fin 4)} {v : α}
    (hp : nodeAt rt path = some nd) (hv : nd.value = some v) :
    v ∈ rt.contentsList := by
  induction path generalizing rt with
  | nil =>
    simp only [nodeAt] at hp
    injection hp with hp
    subst hp
    obtain ⟨w, c0, c1, c2, c3⟩ := rt
    simp only [Node.value] at hv
    exact mem_contents_mk.mpr (Or.inl hv)
  | cons j rest ih =>
    simp only [nodeAt] at hp
    cases hj : rt.child j with
    | none => rw [hj] at hp; cases hp
    | some m0 =>
      rw [hj] at hp
      have hm : v ∈ m0.contentsList := ih hp
      obtain ⟨w, c0, c1, c2, c3⟩ := rt
      refine mem_contents_mk.mpr (Or.inr ⟨j, ?_⟩)
      rw [hj]
      exact hm

theorem owf_some [PointerOf α] (m : Node α) (l r b t : ℤ) :
    owf (some m) l r b t = nodeWF m l r b t := rfl

theorem nodeWF_child [PointerOf α] {n m : Node α} {l r b t : ℤ} {k : Fin 4}
    (hwf : nodeWF n l r b t = true) (hc : n.child k = some m) :
    nodeWF m (childRect k l r b t (tdiv2 (l + r)) (tdiv2 (b + t))).1
      (childRect k l r b t (tdiv2 (l + r)) (tdiv2 (b + t))).2.1
      (childRect k l r b t (tdiv2 (l + r)) (tdiv2 (b + t))).2.2.1
      (childRect k l r b t (tdiv2 (l + r)) (tdiv2 (b + t))).2.2.2 = true := by
  obtain ⟨v, c0, c1, c2, c3⟩ := n
  rw [nodeWF_mk] at hwf
  simp only [Bool.and_eq_true] at hwf
  obtain ⟨hv, ⟨⟨⟨h0, h1⟩, h2⟩, h3⟩⟩ := hwf
  obtain ⟨kv, hk⟩ := k
  interval_cases kv
  · simp only [Node.child] at hc; rw [hc] at h0; exact h0
  · simp only [Node.child] at hc; rw [hc] at h1; exact h1
  · simp only [Node.child] at hc; rw [hc] at h2; exact h2
  · simp only [Node.child] at hc; rw [hc] at h3; exact h3

theorem cellWithin_child {U : BoundOf} {l r b t : ℤ} (k : Fin 4)
    (h : cellWithin U l r b t) :
    cellWithin U (childRect k l r b t (tdiv2 (l + r)) (tdiv2 (b + t))).1
      (childRect k l r b t (tdiv2 (l + r)) (tdiv2 (b + t))).2.1
      (childRect k l r b t (tdiv2 (l + r)) (tdiv2 (b + t))).2.2.1
      (childRect k l r b t (tdiv2 (l + r)) (tdiv2 (b + t))).2.2.2 := by
  obtain ⟨h1, h2, h3, h4, h5, h6⟩ := h
  have hx := tdiv2_between h2
  have hy := tdiv2_between h5
  obtain ⟨kv, hk⟩ := k
  interval_cases kv <;> simp only [childRect, cellWithin] <;>
    refine ⟨?_, ?_, ?_, ?_, ?_, ?_⟩ <;> omega

theorem wf_contents_in_rect [PointerOf α] :
    ∀ n : Node α, ∀ l r b t : ℤ, nodeWF n l r b t = true → l ≤ r → b ≤ t →
      ∀ x ∈ n.contentsList, inRectW (ptOf x) l r b t = true := by
  refine node_size_induction ?_
  intro n IH l r b t hwf hlr hbt x hx
  obtain ⟨v, c0, c1, c2, c3⟩ := n
  rw [nodeWF_mk] at hwf
  simp only [Bool.and_eq_true] at hwf
  obtain ⟨hv, ⟨⟨⟨h0, h1⟩, h2⟩, h3⟩⟩ := hwf
  have midx := tdiv2_between hlr
  have midy := tdiv2_between hbt
  rcases mem_contents_mk.mp hx with hvx | ⟨⟨kv, hklt⟩, hk⟩
  · rw [hvx] at hv; exact hv
  · interval_cases kv
    · cases hc : c0 with
      | none => simp only [Node.child] at hk; rw [hc] at hk; cases hk
      | some m =>
        simp only [Node.child] at hk
        rw [hc] at hk
        rw [hc, owf_some] at h0
        have hsz : Node.size m < Node.size (Node.mk v c0 c1 c2 c3) := by
          rw [size_mk, hc, osize_some]; omega
        have := IH m hsz l (tdiv2 (l + r)) (tdiv2 (b + t)) t h0 midx.1 midy.2 x hk
        rw [inRectW_iff] at this ⊢
        omega
    · cases hc : c1 with
      | none => simp only [Node.child] at hk; rw [hc] at hk; cases hk
      | some m =>
        simp only [Node.child] at hk
        rw [hc] at hk
        rw [hc, owf_some] at h1
        have hsz : Node.size m < Node.size (Node.mk v c0 c1 c2 c3) := by
          rw [size_mk, hc, osize_some]; omega
        have := IH m hsz (tdiv2 (l + r)) r (tdiv2 (b + t)) t h1 midx.2 midy.2 x hk
        rw [inRectW_iff] at this ⊢
        omega
    · cases hc : c2 with
      | none => simp only [Node.child] at hk; rw [hc] at hk; cases hk
      | some m =>
        simp only [Node.child] at hk
        rw [hc] at hk
        rw [hc, owf_some] at h2
        have hsz : Node.size m < Node.size (Node.mk v c0 c1 c2 c3) := by
          rw [size_mk, hc, osize_some]; omega
        have := IH m hsz l (tdiv2 (l + r)) b (tdiv2 (b + t)) h2 midx.1 midy.1 x hk
        rw [inRectW_iff] at this ⊢
        omega
    · cases hc : c3 with
      | none => simp only [Node.child] at hk; rw [hc] at hk; cases hk
      | some m =>
        simp only [Node.child] at hk
        rw [hc] at hk
        rw [hc, owf_some] at h3
        have hsz : Node.size m < Node.size (Node.mk v c0 c1 c2 c3) := by
          rw [size_mk, hc, osize_some]; omega
        have := IH m hsz (tdiv2 (l + r)) r b (tdiv2 (b + t)) h3 midx.2 midy.1 x hk
        rw [inRectW_iff] at this ⊢
        omega

theorem sq_le_distsq (qv p : Pt) :
    (qv.x - p.x) * (qv.x - p.x) ≤ DistanceSquared qv p ∧
    (qv.y - p.y) * (qv.y - p.y) ≤ DistanceSquared qv p := by
  unfold DistanceSquared
  constructor <;>
    nlinarith [mul_self_nonneg (qv.x - p.x), mul_self_nonneg (qv.y - p.y)]

theorem abs_le_mathSqrt {z d : ℤ} (h : z * z < d) :
    -(mathSqrt d) ≤ z ∧ z ≤ mathSqrt d := by
  have hd : 0 < d := lt_of_le_of_lt (mul_self_nonneg z) h
  have h2 : ((z.natAbs * z.natAbs : ℕ) : ℤ) = z * z := by
    rw [Nat.cast_mul]; exact Int.natAbs_mul_self
  have h1 : z.natAbs * z.natAbs < d.toNat := by omega
  have hle : z.natAbs ≤ Nat.sqrt d.toNat := Nat.le_sqrt.mpr (le_of_lt h1)
  unfold mathSqrt
  simp only [Int.ofNat_eq_natCast]
  omega

theorem shrink_covers {p qv : Pt} {d : ℤ} (h : DistanceSquared qv p < d) :
    (shrinkToSquare p d).Contains qv = true := by
  have hx := abs_le_mathSqrt (lt_of_le_of_lt (sq_le_distsq qv p).1 h)
  have hy := abs_le_mathSqrt (lt_of_le_of_lt (sq_le_distsq qv p).2 h)
  rw [contains_iff]
  simp only [shrinkToSquare]
  refine ⟨?_, ?_, ?_, ?_⟩ <;> omega

theorem findVisitValue_spec [PointerOf α] {rt : Node α} {U : BoundOf} {p : Pt}
    {f : Option (α → Bool)} {s : FindState α} {n : Node α} {path : List (Fin 4)} {v : α}
    (hinv : FindInv rt U p f s) (hpath : nodeAt rt path = some n) (hval : n.value = some v) :
    ∃ s1, findVisitValue s path v = some s1 ∧ FindInv rt U p f s1 ∧
      sentinelLE s1.minDistSquared s.minDistSquared ∧
      (accepts f v = true →
        ltSentinel (DistanceSquared (ptOf v) p) s1.minDistSquared = false) := by
  obtain ⟨hpt, hfl, hrest⟩ := hinv
  by_cases hacc : accepts s.filter v = true
  · by_cases hlt : ltSentinel (DistanceSquared (ptOf v) s.point) s.minDistSquared = true
    · refine ⟨_, by unfold findVisitValue; rw [hacc]; simp [hlt]; rfl, ?_, ?_, ?_⟩
      · refine ⟨hpt, hfl, ⟨n, hpath, hval⟩, by rw [← hfl]; exact hacc, by rw [hpt], ?_⟩
        intro qv hqv
        rw [hpt] at hqv ⊢
        exact shrink_covers hqv
      · intro e he
        rw [ltSentinel_some_iff] at he
        cases hm : s.minDistSquared with
        | none => exact ltSentinel_none e
        | some m =>
          rw [hm, ltSentinel_some_iff] at hlt
          rw [ltSentinel_some_iff]
          omega
      · intro _
        rw [hpt]
        simp [ltSentinel]
    · have hltf : ltSentinel (DistanceSquared (ptOf v) s.point) s.minDistSquared = false := by
        cases h' : ltSentinel (DistanceSquared (ptOf v) s.point) s.minDistSquared with
        | false => rfl
        | true => exact absurd h' hlt
      refine ⟨s, by unfold findVisitValue; rw [hacc]; simp [hltf], ⟨hpt, hfl, hrest⟩,
        sentinelLE_refl _, ?_⟩
      intro _
      rw [← hpt]
      exact hltf
  · have haccf : accepts s.filter v = false := by
      cases h' : accepts s.filter v with
      | false => rfl
      | true => exact absurd h' hacc
    refine ⟨s, by unfold findVisitValue; rw [haccf]; simp, ⟨hpt, hfl, hrest⟩,
      sentinelLE_refl _, ?_⟩
    intro hfv
    rw [← hfl] at hfv
    exact absurd hfv hacc

theorem visitGo_succ (ops : VisitorOps α σ) (fuel : ℕ) (n : Node α) (l r b t : ℤ)
    (path : List (Fin 4)) (s : σ) :
    visitGo ops (fuel + 1) n l r b t path s =
      (if l > (ops.bound s).max.x ∨ r < (ops.bound s).min.x ∨ b > (ops.bound s).max.y ∨
          t < (ops.bound s).min.y then some s
       else
        match (match n.value with | some v => ops.visitValue s path v | none => some s) with
        | none => none
        | some s1 =>
          if (n.child 0).isNone && (n.child 1).isNone && (n.child 2).isNone &&
              (n.child 3).isNone then some s1
          else
            visitFold (visitGo ops fuel) n l r b t (tdiv2 (l + r)) (tdiv2 (b + t)) path
              (cycleFrom (childIndex (tdiv2 (l + r)) (tdiv2 (b + t)) (ops.point s1))) s1) :=
  rfl

theorem visitFold_nil (visit : Node α → ℤ → ℤ → ℤ → ℤ → List (Fin 4) → σ → Option σ)
    (n : Node α) (l r b t cx cy : ℤ) (path : List (Fin 4)) (s : σ) :
    visitFold visit n l r b t cx cy path [] s = some s := rfl

theorem foldl_visitStep_none (visit : Node α → ℤ → ℤ → ℤ → ℤ → List (Fin 4) → σ → Option σ)
    (n : Node α) (l r b t cx cy : ℤ) (path : List (Fin 4)) :
    ∀ ks : List (Fin 4), ks.foldl (visitStep visit n l r b t cx cy path) none = none := by
  intro ks
  induction ks with
  | nil => rfl
  | cons k ks ih =>
    rw [List.foldl_cons]
    exact ih

theorem visitFold_cons_none (visit : Node α → ℤ → ℤ → ℤ → ℤ → List (Fin 4) → σ → Option σ)
    {n : Node α} {k : Fin 4} (hck : n.child k = none)
    (l r b t cx cy : ℤ) (path : List (Fin 4)) (ks : List (Fin 4)) (s : σ) :
    visitFold visit n l r b t cx cy path (k :: ks) s =
      visitFold visit n l r b t cx cy path ks s := by
  unfold visitFold
  rw [List.foldl_cons]
  congr 1
  unfold visitStep
  rw [hck]

theorem visitFold_cons_some_ok (visit : Node α → ℤ → ℤ → ℤ → ℤ → List (Fin 4) → σ → Option σ)
    {n : Node α} {k : Fin 4} {m : Node α} {s s2 : σ} (hck : n.child k = some m)
    {l r b t cx cy : ℤ} {path : List (Fin 4)}
    (hv : visit m (childRect k l r b t cx cy).1 (childRect k l r b t cx cy).2.1
      (childRect k l r b t cx cy).2.2.1 (childRect k l r b t cx cy).2.2.2
      (path ++ [k]) s = some s2) (ks : List (Fin 4)) :
    visitFold visit n l r b t cx cy path (k :: ks) s =
      visitFold visit n l r b t cx cy path ks s2 := by
  unfold visitFold
  rw [List.foldl_cons]
  congr 1
  unfold visitStep
  rw [hck]
  exact hv

theorem visitFold_cons_some_panic (visit : Node α → ℤ → ℤ → ℤ → ℤ → List (Fin 4) → σ → Option σ)
    {n : Node α} {k : Fin 4} {m : Node α} {s : σ} (hck : n.child k = some m)
    {l r b t cx cy : ℤ} {path : List (Fin 4)}
    (hv : visit m (childRect k l r b t cx cy).1 (childRect k l r b t cx cy).2.1
      (childRect k l r b t cx cy).2.2.1 (childRect k l r b t cx cy).2.2.2
      (path ++ [k]) s = none) (ks : List (Fin 4)) :
    visitFold visit n l r b t cx cy path (k :: ks) s = none := by
  unfold visitFold
  rw [List.foldl_cons]
  have hstep : visitStep visit n l r b t cx cy path (some s) k = none := by
    unfold visitStep
    rw [hck]
    exact hv
  rw [hstep]
  exact foldl_visitStep_none visit n l r b t cx cy path ks

theorem findOps_bound [PointerOf α] (s : FindState α) :
    (findOps α).bound s = s.closestBound := rfl

theorem findOps_point [PointerOf α] (s : FindState α) :
    (findOps α).point s = s.point := rfl

theorem findOps_visit [PointerOf α] :
    (findOps α).visitValue = findVisitValue := rfl

theorem find_prune_complete [PointerOf α] {rt : Node α} {U : BoundOf} {p : Pt}
    {f : Option (α → Bool)} {s : FindState α} {n : Node α} {l r b t : ℤ}
    (hinv : FindInv rt U p f s) (hwf : nodeWF n l r b t = true)
    (hcell : cellWithin U l r b t)
    (hprune : l > s.closestBound.max.x ∨ r < s.closestBound.min.x ∨
      b > s.closestBound.max.y ∨ t < s.closestBound.min.y) :
    ∀ x ∈ n.contentsList, accepts f x = true →
      ltSentinel (DistanceSquared (ptOf x) p) s.minDistSquared = false := by
  obtain ⟨hpt, hfl, hrest⟩ := hinv
  intro x hx hacc
  obtain ⟨hUl, hlr, hrU, hUb, hbt, htU⟩ := hcell
  have hxin := wf_contents_in_rect n l r b t hwf hlr hbt x hx
  rw [inRectW_iff] at hxin
  cases hcl : s.closest with
  | none =>
    cases hmd : s.minDistSquared with
    | none =>
      have hU : s.closestBound = U := by rw [hcl, hmd] at hrest; exact hrest
      rw [hU] at hprune
      omega
    | some m =>
      have : False := by rw [hcl, hmd] at hrest; exact hrest
      exact this.elim
  | some pv =>
    obtain ⟨path0, v0⟩ := pv
    cases hmd : s.minDistSquared with
    | none =>
      have : False := by rw [hcl, hmd] at hrest; exact hrest
      exact this.elim
    | some m =>
      have hgood : (∃ nd : Node α, nodeAt rt path0 = some nd ∧ nd.value = some v0) ∧
          accepts f v0 = true ∧ DistanceSquared (ptOf v0) p = m ∧
          ∀ qv : Pt, DistanceSquared qv p < m → s.closestBound.Contains qv = true := by
        rw [hcl, hmd] at hrest; exact hrest
      obtain ⟨_, _, _, hbnd⟩ := hgood
      cases hls : ltSentinel (DistanceSquared (ptOf x) p) (some m) with
      | false => rfl
      | true =>
        exfalso
        rw [ltSentinel_some_iff] at hls
        have hcont := hbnd (ptOf x) hls
        rw [contains_iff] at hcont
        omega

theorem find_fold_spec [PointerOf α] {rt : Node α} {U : BoundOf} {p : Pt}
    {f : Option (α → Bool)} {fuel : ℕ} {n : Node α} {l r b t : ℤ} {path : List (Fin 4)}
    (IHvisit : ∀ (m : Node α) (l' r' b' t' : ℤ) (path' : List (Fin 4)) (s : FindState α),
      Node.size m ≤ fuel → nodeWF m l' r' b' t' = true → cellWithin U l' r' b' t' →
      nodeAt rt path' = some m → FindInv rt U p f s →
      ∃ s', visitGo (findOps α) fuel m l' r' b' t' path' s = some s' ∧
        FindInv rt U p f s' ∧ sentinelLE s'.minDistSquared s.minDistSquared ∧
        ∀ x ∈ m.contentsList, accepts f x = true →
          ltSentinel (DistanceSquared (ptOf x) p) s'.minDistSquared = false)
    (hkids : ∀ (k : Fin 4) (m : Node α), n.child k = some m →
      KidOK rt U fuel n l r b t (tdiv2 (l + r)) (tdiv2 (b + t)) path k m) :
    ∀ (ks : List (Fin 4)) (s1 : FindState α), FindInv rt U p f s1 →
      ∃ s', visitFold (visitGo (findOps α) fuel) n l r b t (tdiv2 (l + r)) (tdiv2 (b + t))
          path ks s1 = some s' ∧
      FindInv rt U p f s' ∧ sentinelLE s'.minDistSquared s1.minDistSquared ∧
      ∀ k ∈ ks, ∀ x ∈ Node.ocontents (n.child k), accepts f x = true →
        ltSentinel (DistanceSquared (ptOf x) p) s'.minDistSquared = false := by
  intro ks
  induction ks with
  | nil =>
    intro s1 h1
    exact ⟨s1, rfl, h1, sentinelLE_refl _, by simp⟩
  | cons k rest ihks =>
    intro s1 h1
    cases hck : n.child k with
    | none =>
      obtain ⟨s', heq, hinv', hle', hcomp'⟩ := ihks s1 h1
      refine ⟨s', ?_, hinv', hle', ?_⟩
      · rw [visitFold_cons_none _ hck]
        exact heq
      · intro kk hkk x hxk hacc
        rcases List.mem_cons.mp hkk with hkk | hkk
        · subst hkk
          rw [hck] at hxk
          cases hxk
        · exact hcomp' kk hkk x hxk hacc
    | some m =>
      have hko := hkids k m hck
      unfold KidOK at hko
      obtain ⟨hszm, hwfm, hcellm, hpathm⟩ := hko
      obtain ⟨s2, heq2, hinv2, hle2, hcomp2⟩ :=
        IHvisit m _ _ _ _ (path ++ [k]) s1 hszm hwfm hcellm hpathm h1
      obtain ⟨s', heq', hinv', hle', hcomp'⟩ := ihks s2 hinv2
      refine ⟨s', ?_, hinv', sentinelLE_trans hle' hle2, ?_⟩
      · rw [visitFold_cons_some_ok _ hck heq2]
        exact heq'
      · intro kk hkk x hxk hacc
        rcases List.mem_cons.mp hkk with hkk | hkk
        · subst hkk
          rw [hck] at hxk
          have hx2 := hcomp2 x hxk hacc
          exact ltSentinel_false_mono hle' hx2
        · exact hcomp' kk hkk x hxk hacc

theorem findVisit_spec [PointerOf α] (rt : Node α) (U : BoundOf) (p : Pt)
    (f : Option (α → Bool)) :
    ∀ fuel : ℕ, ∀ n : Node α, ∀ l r b t : ℤ, ∀ path : List (Fin 4), ∀ s : FindState α,
      Node.size n ≤ fuel → nodeWF n l r b t = true → cellWithin U l r b t →
      nodeAt rt path = some n → FindInv rt U p f s →
      ∃ s', visitGo (findOps α) fuel n l r b t path s = some s' ∧
        FindInv rt U p f s' ∧ sentinelLE s'.minDistSquared s.minDistSquared ∧
        ∀ x ∈ n.contentsList, accepts f x = true →
          ltSentinel (DistanceSquared (ptOf x) p) s'.minDistSquared = false := by
  intro fuel
  induction fuel with
  | zero =>
    intro n l r b t path s hsz
    exact absurd hsz (by have := size_pos n; omega)
  | succ fuel IH =>
    intro n l r b t path s hsz hwf hcell hpath hinv
    rw [visitGo_succ]
    simp only [findOps_bound, findOps_point, findOps_visit]
    by_cases hprune : (l > s.closestBound.max.x ∨ r < s.closestBound.min.x ∨
        b > s.closestBound.max.y ∨ t < s.closestBound.min.y)
    · rw [if_pos hprune]
      exact ⟨s, rfl, hinv, sentinelLE_refl _, find_prune_complete hinv hwf hcell hprune⟩
    · rw [if_neg hprune]
      have hval : ∃ s1, (match n.value with
            | some v => findVisitValue s path v
            | none => some s) = some s1 ∧ FindInv rt U p f s1 ∧
          sentinelLE s1.minDistSquared s.minDistSquared ∧
          ∀ v : α, n.value = some v → accepts f v = true →
            ltSentinel (DistanceSquared (ptOf v) p) s1.minDistSquared = false := by
        cases hv : n.value with
        | none =>
          refine ⟨s, rfl, hinv, sentinelLE_refl _, ?_⟩
          intro v hv' _
          cases hv'
        | some v =>
          obtain ⟨s1, heq, hinv1, hle1, himp⟩ := findVisitValue_spec hinv hpath hv
          refine ⟨s1, heq, hinv1, hle1, ?_⟩
          intro v' hv' hacc
          injection hv' with hv'
          subst hv'
          exact himp hacc
      obtain ⟨s1, heqv, hinv1, hle1, hvcomp⟩ := hval
      rw [heqv]
      simp only []
      have hkids : ∀ (k : Fin 4) (m : Node α), n.child k = some m →
          KidOK rt U fuel n l r b t (tdiv2 (l + r)) (tdiv2 (b + t)) path k m := by
        intro k m hck
        have h4 : Node.size m ≤ fuel := by
          have := child_size_lt hck
          omega
        unfold KidOK
        rcases hcrk : childRect k l r b t (tdiv2 (l + r)) (tdiv2 (b + t)) with ⟨l', r', b', t'⟩
        have h1 := nodeWF_child hwf hck
        have h2 := cellWithin_child k hcell
        have h3 := nodeAt_child hpath hck
        rw [hcrk] at h1 h2
        exact ⟨h4, h1, h2, h3⟩
      by_cases hnc : ((n.child 0).isNone && (n.child 1).isNone && (n.child 2).isNone &&
          (n.child 3).isNone) = true
      · rw [if_pos hnc]
        refine ⟨s1, rfl, hinv1, hle1, ?_⟩
        simp only [Bool.and_eq_true, Option.isNone_iff_eq_none] at hnc
        obtain ⟨⟨⟨h0, h1⟩, h2⟩, h3⟩ := hnc
        intro x hx hacc
        obtain ⟨v, c0, c1, c2, c3⟩ := n
        rcases mem_contents_mk.mp hx with hvx | ⟨k, hk⟩
        · exact hvcomp x (by simpa only [Node.value] using hvx) hacc
        · obtain ⟨kv, hklt⟩ := k
          interval_cases kv <;> simp only [Node.child] at hk <;>
            first
            | (rw [show (Node.mk v c0 c1 c2 c3).child 0 = c0 from rfl] at h0;
               rw [h0] at hk; cases hk)
            | (rw [show (Node.mk v c0 c1 c2 c3).child 1 = c1 from rfl] at h1;
               rw [h1] at hk; cases hk)
            | (rw [show (Node.mk v c0 c1 c2 c3).child 2 = c2 from rfl] at h2;
               rw [h2] at hk; cases hk)
            | (rw [show (Node.mk v c0 c1 c2 c3).child 3 = c3 from rfl] at h3;
               rw [h3] at hk; cases hk)
      · rw [if_neg hnc]
        obtain ⟨s', heq', hinv', hle', hcomp'⟩ :=
          find_fold_spec IH hkids
            (cycleFrom (childIndex (tdiv2 (l + r)) (tdiv2 (b + t)) s1.point)) s1 hinv1
        refine ⟨s', heq', hinv', sentinelLE_trans hle' hle1, ?_⟩
        intro x hx hacc
        obtain ⟨v, c0, c1, c2, c3⟩ := n
        rcases mem_contents_mk.mp hx with hvx | ⟨k, hk⟩
        · have h1 := hvcomp x (by simpa only [Node.value] using hvx) hacc
          exact ltSentinel_false_mono hle' h1
        · exact hcomp' k (mem_cycleFrom _ k) x hk hacc

/-- C1: for a well-formed tree, `Matching(p, f)` — and `Find(p)`, which is
`Matching` with no filter — returns a stored entity passing the filter whose
squared euclidean distance to `p` is minimal among all stored entities
passing the filter, and returns `none` exactly when the tree is empty or no
stored entity passes the filter. -/
theorem matching_finds_closest [PointerOf α] (q : QuadtreeOf α) (hwf : q.WF = true)
    (p : Pt) (f : Option (α → Bool)) :
    (q.Find p = q.Matching p none) ∧
    (q.Matching p f = none ↔ ∀ w ∈ q.contentsList, accepts f w = false) ∧
    (∀ v : α, q.Matching p f = some v →
      v ∈ q.contentsList ∧ accepts f v = true ∧
      ∀ w ∈ q.contentsList, accepts f w = true →
        DistanceSquared (ptOf v) p ≤ DistanceSquared (ptOf w) p) := by
  refine ⟨rfl, ?_⟩
  cases hr : q.root with
  | none =>
    have hM : q.Matching p f = none := by
      unfold QuadtreeOf.Matching
      rw [hr]
    have hC : q.contentsList = [] := by
      unfold QuadtreeOf.contentsList
      rw [hr]
    rw [hM, hC]
    exact ⟨by simp, by intro v hv; cases hv⟩
  | some rt =>
    have hC : q.contentsList = rt.contentsList := by
      unfold QuadtreeOf.contentsList
      rw [hr]
    unfold QuadtreeOf.WF at hwf
    rw [hr] at hwf
    simp only [Bool.and_eq_true, decide_eq_true_eq] at hwf
    obtain ⟨⟨hpx, hpy⟩, hnwf⟩ := hwf
    have hcell : cellWithin q.bound q.bound.min.x q.bound.max.x q.bound.min.y
        q.bound.max.y := ⟨le_refl _, hpx, le_refl _, le_refl _, hpy, le_refl _⟩
    have hinv0 : FindInv rt q.bound p f ⟨p, f, none, q.bound, none⟩ := ⟨rfl, rfl, rfl⟩
    obtain ⟨s', heq, hinv', hle', hcomp'⟩ :=
      findVisit_spec rt q.bound p f (Node.size rt) rt q.bound.min.x q.bound.max.x
        q.bound.min.y q.bound.max.y [] ⟨p, f, none, q.bound, none⟩ le_rfl hnwf hcell rfl
        hinv0
    obtain ⟨hpt', hfl', hrest'⟩ := hinv'
    cases hcl : s'.closest with
    | none =>
      cases hmd : s'.minDistSquared with
      | some m =>
        have hfalse : False := by rw [hcl, hmd] at hrest'; exact hrest'
        exact hfalse.elim
      | none =>
        have hM : q.Matching p f = none := by
          unfold QuadtreeOf.Matching
          rw [hr]
          simp only [heq, hcl]
        rw [hM, hC]
        refine ⟨⟨fun _ => ?_, fun _ => rfl⟩, ?_⟩
        · intro w hw
          cases hacc : accepts f w with
          | false => rfl
          | true =>
            have hcw := hcomp' w hw hacc
            rw [hmd] at hcw
            rw [ltSentinel_none] at hcw
            cases hcw
        · intro v hv
          cases hv
    | some pv =>
      obtain ⟨path0, v0⟩ := pv
      cases hmd : s'.minDistSquared with
      | none =>
        have hfalse : False := by rw [hcl, hmd] at hrest'; exact hrest'
        exact hfalse.elim
      | some m =>
        have hgood : (∃ nd : Node α, nodeAt rt path0 = some nd ∧ nd.value = some v0) ∧
            accepts f v0 = true ∧ DistanceSquared (ptOf v0) p = m ∧
            ∀ qv : Pt, DistanceSquared qv p < m →
              s'.closestBound.Contains qv = true := by
          rw [hcl, hmd] at hrest'; exact hrest'
        obtain ⟨⟨nd, hnd, hndv⟩, haccv, hdistv, _⟩ := hgood
        have hvmem : v0 ∈ rt.contentsList := nodeAt_value_mem hnd hndv
        have hM : q.Matching p f = some v0 := by
          unfold QuadtreeOf.Matching
          rw [hr]
          simp only [heq, hcl]
        rw [hM, hC]
        constructor
        · constructor
          · intro h; cases h
          · intro hall
            rw [hall v0 hvmem] at haccv
            cases haccv
        · intro v hv
          injection hv with hv
          subst hv
          refine ⟨hvmem, haccv, ?_⟩
          intro w hw haccw
          have hcw := hcomp' w hw haccw
          rw [hmd] at hcw
          have hnot : ¬ (DistanceSquared (ptOf w) p < m) := by
            intro hlt
            rw [(ltSentinel_some_iff _ _).mpr hlt] at hcw
            cases hcw
          omega

theorem matching_finds_closest_witness :
    sampleTree4.WF = true ∧
    ((sampleTree4.Find ⟨0, 0⟩ = sampleTree4.Matching ⟨0, 0⟩ none) ∧
     (sampleTree4.Matching ⟨0, 0⟩ none = none ↔
       ∀ w ∈ sampleTree4.contentsList, accepts none w = false) ∧
     (∀ v : Pt, sampleTree4.Matching ⟨0, 0⟩ none = some v →
       v ∈ sampleTree4.contentsList ∧ accepts none v = true ∧
       ∀ w ∈ sampleTree4.contentsList, accepts none w = true →
         DistanceSquared (ptOf v) ⟨0, 0⟩ ≤ DistanceSquared (ptOf w) ⟨0, 0⟩)) :=
  ⟨by decide, matching_finds_closest sampleTree4 (by decide) ⟨0, 0⟩ none⟩

/-- C2 (code bug): after `Add (5,5)`, `Add (1,1)`, `Remove (1,1)`,
`Add (1,1)` (successful, and visible to `InBound` at that point), a final
`Remove (5,5)` — which reports removing one entity — leaves `InBound` over
the universe rectangle empty: the removal fix-up discards the value-less
child node it scans past together with the subtree holding the re-added
(1,1), so the index loses an entity that was successfully added and never
removed. -/
theorem inbound_universe_drop_bug :
    (sampleAfterRemove1.Add (some ⟨1, 1⟩)).2 = none ∧
    ((sampleAfterRemove1.Add (some ⟨1, 1⟩)).1.InBound
        (sampleAfterRemove1.Add (some ⟨1, 1⟩)).1.bound) = some [⟨5, 5⟩, ⟨1, 1⟩] ∧
    ((sampleAfterRemove1.Add (some ⟨1, 1⟩)).1.Remove ⟨5, 5⟩ none).map Prod.snd =
      some true ∧
    sampleDropped.InBound sampleDropped.bound = some [] :=
  ⟨rfl, rfl, rfl, rfl⟩

theorem maxHeapPush_perm (h : List (α × ℤ)) (v : α) (d : ℤ) :
    (maxHeapPush h v d).Perm ((v, d) :: h) := by
  induction h with
  | nil => exact List.Perm.refl _
  | cons x rest ih =>
    unfold maxHeapPush
    by_cases hd : d > x.2
    · rw [if_pos hd]
    · rw [if_neg hd]
      exact (List.Perm.cons x ih).trans (List.Perm.swap _ _ _)

theorem maxHeapPush_length (h : List (α × ℤ)) (v : α) (d : ℤ) :
    (maxHeapPush h v d).length = h.length + 1 :=
  (maxHeapPush_perm h v d).length_eq

theorem maxHeapPush_mem {h : List (α × ℤ)} {v : α} {d : ℤ} {e : α × ℤ} :
    e ∈ maxHeapPush h v d ↔ e = (v, d) ∨ e ∈ h := by
  rw [(maxHeapPush_perm h v d).mem_iff, List.mem_cons]

theorem maxHeapPush_sorted {h : List (α × ℤ)} {v : α} {d : ℤ}
    (hs : List.Pairwise (fun a b => b.2 ≤ a.2) h) :
    List.Pairwise (fun a b => b.2 ≤ a.2) (maxHeapPush h v d) := by
  induction h with
  | nil => simp [maxHeapPush]
  | cons x rest ih =>
    rw [List.pairwise_cons] at hs
    obtain ⟨hx, hrest⟩ := hs
    unfold maxHeapPush
    by_cases hd : d > x.2
    · rw [if_pos hd]
      rw [List.pairwise_cons]
      refine ⟨?_, ?_⟩
      · intro e he
        rcases List.mem_cons.mp he with he | he
        · subst he; omega
        · have := hx e he; omega
      · rw [List.pairwise_cons]
        exact ⟨hx, hrest⟩
    · rw [if_neg hd]
      rw [List.pairwise_cons]
      refine ⟨?_, ih hrest⟩
      intro e he
      rcases maxHeapPush_mem.mp he with he | he
      · subst he; simp; omega
      · exact hx e he

theorem nearOps_bound [PointerOf α] (s : NearState α) :
    (nearOps α).bound s = s.closestBound := rfl

theorem nearOps_point [PointerOf α] (s : NearState α) :
    (nearOps α).point s = s.point := rfl

theorem nearOps_visit [PointerOf α] :
    (nearOps α).visitValue = nearVisitValue := rfl

theorem nearVisitValue_inv [PointerOf α] {p : Pt} {f : Option (α → Bool)} {k : ℤ}
    {s : NearState α} {path : List (Fin 4)} {v : α} (hk : 1 ≤ k)
    (hinv : NearInv p f k s) :
    ∃ s1, nearVisitValue s path v = some s1 ∧ NearInv p f k s1 := by
  obtain ⟨hpt, hfl, hks, hlen, hsort, hent⟩ := hinv
  by_cases hacc : accepts s.filter v = true
  · by_cases hlt : ltSentinel (DistanceSquared (ptOf v) s.point) s.maxDistSquared = true
    · by_cases hfull : ((maxHeapPush s.maxHeap v
          (DistanceSquared (ptOf v) s.point)).length : ℤ) > s.k
      · cases hh1 : maxHeapPush s.maxHeap v (DistanceSquared (ptOf v) s.point) with
        | nil =>
          exfalso
          have := maxHeapPush_length s.maxHeap v (DistanceSquared (ptOf v) s.point)
          rw [hh1] at this
          simp at this
        | cons x rest =>
          cases hrest : rest with
          | nil =>
            exfalso
            have hl1 := maxHeapPush_length s.maxHeap v (DistanceSquared (ptOf v) s.point)
            rw [hh1, hrest] at hl1
            rw [hh1, hrest] at hfull
            simp at hl1 hfull
            omega
          | cons top rest2 =>
            refine ⟨{ s with
                maxHeap := rest
                maxDistSquared := some top.2
                closestBound := shrinkToSquare s.point top.2 }, ?_, ?_⟩
            · unfold nearVisitValue
              rw [hacc]
              simp only [Bool.not_true, Bool.false_eq_true, if_false, hlt, if_true]
              rw [hh1]
              simp only [if_pos (by rw [← hh1]; exact hfull : ((x :: rest).length : ℤ) > s.k)]
              rw [maxHeapPop]
              simp only []
              rw [hrest]
              rfl
            · have hsort1 := maxHeapPush_sorted (v := v)
                (d := DistanceSquared (ptOf v) s.point) hsort
              rw [hh1] at hsort1
              have hlen1 := maxHeapPush_length s.maxHeap v (DistanceSquared (ptOf v) s.point)
              rw [hh1] at hlen1
              refine ⟨hpt, hfl, hks, ?_, ?_, ?_⟩
              · simp only []
                have : rest.length + 1 = s.maxHeap.length + 1 := by
                  simpa using hlen1
                omega
              · simp only []
                exact (List.pairwise_cons.mp hsort1).2
              · simp only []
                intro e he
                have hemem : e ∈ maxHeapPush s.maxHeap v (DistanceSquared (ptOf v) s.point) := by
                  rw [hh1]
                  exact List.mem_cons_of_mem x he
                rcases maxHeapPush_mem.mp hemem with he' | he'
                · subst he'
                  rw [hpt]
                · exact hent e he'
      · refine ⟨{ s with maxHeap := maxHeapPush s.maxHeap v (DistanceSquared (ptOf v) s.point) }, ?_, ?_⟩
        · unfold nearVisitValue
          rw [hacc]
          simp only [Bool.not_true, Bool.false_eq_true, if_false, hlt, if_true]
          rw [if_neg hfull]
        · refine ⟨hpt, hfl, hks, ?_, maxHeapPush_sorted hsort, ?_⟩
          · simp only []
            rw [hks] at hfull
            omega
          · simp only []
            intro e he
            rcases maxHeapPush_mem.mp he with he' | he'
            · subst he'
              rw [hpt]
            · exact hent e he'
    · have hltf : ltSentinel (DistanceSquared (ptOf v) s.point) s.maxDistSquared = false := by
        cases h' : ltSentinel (DistanceSquared (ptOf v) s.point) s.maxDistSquared with
        | false => rfl
        | true => exact absurd h' hlt
      refine ⟨s, ?_, hpt, hfl, hks, hlen, hsort, hent⟩
      unfold nearVisitValue
      rw [hacc]
      simp only [Bool.not_true, Bool.false_eq_true, if_false, hltf]
  · have haccf : accepts s.filter v = false := by
      cases h' : accepts s.filter v with
      | false => rfl
      | true => exact absurd h' hacc
    refine ⟨s, ?_, hpt, hfl, hks, hlen, hsort, hent⟩
    unfold nearVisitValue
    rw [haccf]
    simp only [Bool.not_false, if_true]

theorem nearVisit_inv [PointerOf α] (p : Pt) (f : Option (α → Bool)) (k : ℤ) (hk : 1 ≤ k) :
    ∀ fuel : ℕ, ∀ n : Node α, ∀ l r b t : ℤ, ∀ path : List (Fin 4), ∀ s : NearState α,
      NearInv p f k s →
      ∃ s', visitGo (nearOps α) fuel n l r b t path s = some s' ∧ NearInv p f k s' := by
  intro fuel
  induction fuel with
  | zero =>
    intro n l r b t path s hinv
    exact ⟨s, rfl, hinv⟩
  | succ fuel IH =>
    intro n l r b t path s hinv
    rw [visitGo_succ]
    simp only [nearOps_bound, nearOps_point, nearOps_visit]
    by_cases hprune : (l > s.closestBound.max.x ∨ r < s.closestBound.min.x ∨
        b > s.closestBound.max.y ∨ t < s.closestBound.min.y)
    · rw [if_pos hprune]
      exact ⟨s, rfl, hinv⟩
    · rw [if_neg hprune]
      have hval : ∃ s1, (match n.value with
          | some v => nearVisitValue s path v
          | none => some s) = some s1 ∧ NearInv p f k s1 := by
        cases hv : n.value with
        | none => exact ⟨s, rfl, hinv⟩
        | some v =>
          obtain ⟨s1, heq, h1⟩ := nearVisitValue_inv hk hinv
          exact ⟨s1, heq, h1⟩
      obtain ⟨s1, heqv, hinv1⟩ := hval
      rw [heqv]
      simp only []
      by_cases hnc : ((n.child 0).isNone && (n.child 1).isNone && (n.child 2).isNone &&
          (n.child 3).isNone) = true
      · rw [if_pos hnc]
        exact ⟨s1, rfl, hinv1⟩
      · rw [if_neg hnc]
        have hfold : ∀ ks : List (Fin 4), ∀ s2 : NearState α, NearInv p f k s2 →
            ∃ s', visitFold (visitGo (nearOps α) fuel) n l r b t (tdiv2 (l + r))
              (tdiv2 (b + t)) path ks s2 = some s' ∧ NearInv p f k s' := by
          intro ks
          induction ks with
          | nil =>
            intro s2 h2
            exact ⟨s2, rfl, h2⟩
          | cons kk rest ihks =>
            intro s2 h2
            cases hck : n.child kk with
            | none =>
              obtain ⟨s', heq, h'⟩ := ihks s2 h2
              exact ⟨s', by rw [visitFold_cons_none _ hck]; exact heq, h'⟩
            | some m =>
              obtain ⟨s3, heq3, h3⟩ :=
                IH m (childRect kk l r b t (tdiv2 (l + r)) (tdiv2 (b + t))).1
                  (childRect kk l r b t (tdiv2 (l + r)) (tdiv2 (b + t))).2.1
                  (childRect kk l r b t (tdiv2 (l + r)) (tdiv2 (b + t))).2.2.1
                  (childRect kk l r b t (tdiv2 (l + r)) (tdiv2 (b + t))).2.2.2
                  (path ++ [kk]) s2 h2
              obtain ⟨s', heq', h'⟩ := ihks s3 h3
              exact ⟨s', by rw [visitFold_cons_some_ok _ hck heq3]; exact heq', h'⟩
        exact hfold _ s1 hinv1

theorem cycleFrom_perm : ∀ i : Fin 4, (cycleFrom i).Perm [0, 1, 2, 3] := by
  decide

theorem contents_length_mk (v : Option α) (c0 c1 c2 c3 : Option (Node α)) :
    (Node.contentsList (Node.mk v c0 c1 c2 c3)).length =
      v.toList.length + (Node.ocontents c0).length + (Node.ocontents c1).length +
      (Node.ocontents c2).length + (Node.ocontents c3).length := by
  rw [contents_mk]
  simp [List.length_append]
  omega

theorem nearVisit_collect [PointerOf α] (U : BoundOf) (p : Pt) :
    ∀ fuel : ℕ, ∀ n : Node α, ∀ l r b t : ℤ, ∀ path : List (Fin 4), ∀ s : NearState α,
      Node.size n ≤ fuel → nodeWF n l r b t = true → cellWithin U l r b t →
      s.filter = none → s.maxDistSquared = none → s.closestBound = U → s.point = p →
      ((s.maxHeap.length : ℤ) + (n.contentsList.length : ℤ) ≤ s.k) →
      ∃ s', visitGo (nearOps α) fuel n l r b t path s = some s' ∧
        s'.filter = none ∧ s'.maxDistSquared = none ∧ s'.closestBound = U ∧
        s'.point = p ∧ s'.k = s.k ∧
        s'.maxHeap.Perm (s.maxHeap ++ n.contentsList.map
          (fun x => (x, DistanceSquared (ptOf x) p))) := by
  intro fuel
  induction fuel with
  | zero =>
    intro n l r b t path s hsz
    exact absurd hsz (by have := size_pos n; omega)
  | succ fuel IH =>
    intro n l r b t path s hsz hwf hcell hf hmd hb hspt hbudget
    rw [visitGo_succ]
    simp only [nearOps_bound, nearOps_point, nearOps_visit]
    have hpf : ¬(l > s.closestBound.max.x ∨ r < s.closestBound.min.x ∨
        b > s.closestBound.max.y ∨ t < s.closestBound.min.y) := by
      intro hcon
      rw [hb] at hcon
      obtain ⟨h1, h2, h3, h4, h5, h6⟩ := hcell
      rcases hcon with h | h | h | h <;> omega
    rw [if_neg hpf]
    have hvlen : ∀ v : α, n.value = some v → 1 ≤ n.contentsList.length := by
      intro v hv
      obtain ⟨w, c0, c1, c2, c3⟩ := n
      simp only [Node.value] at hv
      subst hv
      rw [contents_length_mk]
      simp only [Option.toList_some, List.length_singleton]
      omega
    have hval : ∃ s1, (match n.value with
        | some v => nearVisitValue s path v
        | none => some s) = some s1 ∧ s1.filter = none ∧ s1.maxDistSquared = none ∧
        s1.closestBound = U ∧ s1.point = p ∧ s1.k = s.k ∧
        s1.maxHeap.Perm (s.maxHeap ++ n.value.toList.map
          (fun x => (x, DistanceSquared (ptOf x) p))) := by
      cases hv : n.value with
      | none =>
        exact ⟨s, rfl, hf, hmd, hb, hspt, rfl, by simp⟩
      | some v =>
        refine ⟨{ s with maxHeap := maxHeapPush s.maxHeap v (DistanceSquared (ptOf v) s.point) }, ?_, hf, hmd, hb, hspt, rfl, ?_⟩
        · unfold nearVisitValue
          rw [hf]
          simp only [accepts, Bool.not_true, Bool.false_eq_true, if_false]
          rw [hmd]
          simp only [ltSentinel, if_true]
          rw [if_neg ?hlenok]
          case hlenok =>
            rw [maxHeapPush_length]
            have hc1 := hvlen v hv
            push_neg
            push_cast
            omega
        · simp only []
          rw [hspt]
          have hperm := maxHeapPush_perm s.maxHeap v (DistanceSquared (ptOf v) p)
          refine hperm.trans ?_
          simp only [Option.toList_some, List.map_cons, List.map_nil]
          exact (List.perm_append_singleton _ _).symm
    obtain ⟨s1, heqv, hf1, hmd1, hb1, hpt1, hk1, hperm1⟩ := hval
    rw [heqv]
    simp only []
    have hlen1 : s1.maxHeap.length = s.maxHeap.length + n.value.toList.length := by
      have := hperm1.length_eq
      simpa using this
    by_cases hnc : ((n.child 0).isNone && (n.child 1).isNone && (n.child 2).isNone &&
        (n.child 3).isNone) = true
    · rw [if_pos hnc]
      refine ⟨s1, rfl, hf1, hmd1, hb1, hpt1, hk1, ?_⟩
      simp only [Bool.and_eq_true, Option.isNone_iff_eq_none] at hnc
      obtain ⟨⟨⟨h0, h1⟩, h2⟩, h3⟩ := hnc
      obtain ⟨v, c0, c1, c2, c3⟩ := n
      simp only [Node.child] at h0 h1 h2 h3
      subst h0; subst h1; subst h2; subst h3
      refine hperm1.trans ?_
      rw [contents_mk]
      simp only [Node.value, Node.ocontents, List.append_nil]
      exact List.Perm.refl _
    · rw [if_neg hnc]
      have hfold : ∀ ks : List (Fin 4), ∀ s2 : NearState α,
          s2.filter = none → s2.maxDistSquared = none → s2.closestBound = U →
          s2.point = p → s2.k = s.k →
          ((s2.maxHeap.length : ℤ) +
            ((ks.map (fun kk => ((Node.ocontents (n.child kk)).length : ℤ))).sum) ≤ s.k) →
          ∃ s', visitFold (visitGo (nearOps α) fuel) n l r b t (tdiv2 (l + r))
              (tdiv2 (b + t)) path ks s2 = some s' ∧
            s'.filter = none ∧ s'.maxDistSquared = none ∧ s'.closestBound = U ∧
            s'.point = p ∧ s'.k = s.k ∧
            s'.maxHeap.Perm (s2.maxHeap ++
              ((ks.map (fun kk => (Node.ocontents (n.child kk)).map
                (fun x => (x, DistanceSquared (ptOf x) p)))).join)) := by
        intro ks
        induction ks with
        | nil =>
          intro s2 h2f h2md h2b h2pt h2k _
          exact ⟨s2, rfl, h2f, h2md, h2b, h2pt, h2k, by simp⟩
        | cons kk rest ihks =>
          intro s2 h2f h2md h2b h2pt h2k h2budget
          cases hck : n.child kk with
          | none =>
            simp only [List.map_cons, List.sum_cons, hck, Node.ocontents, List.length_nil,
              Nat.cast_zero, zero_add] at h2budget
            obtain ⟨s', heq, a1, a2, a3, a4, a5, a6⟩ :=
              ihks s2 h2f h2md h2b h2pt h2k h2budget
            refine ⟨s', by rw [visitFold_cons_none _ hck]; exact heq, a1, a2, a3, a4, a5, ?_⟩
            refine a6.trans ?_
            simp only [List.map_cons, List.join_cons, hck, Node.ocontents, List.map_nil,
              List.nil_append]
            exact List.Perm.refl _
          | some m =>
            simp only [List.map_cons, List.sum_cons, hck] at h2budget
            rw [show Node.ocontents (some m) = m.contentsList from rfl] at h2budget
            have hszm : Node.size m ≤ fuel := by
              have := child_size_lt hck
              omega
            have hwfm := nodeWF_child hwf hck
            have hcellm := cellWithin_child kk hcell
            have hrestsum : (0 : ℤ) ≤
                ((rest.map (fun kk => ((Node.ocontents (n.child kk)).length : ℤ))).sum) := by
              apply List.sum_nonneg
              intro a ha
              obtain ⟨kk2, _, hkk2⟩ := List.mem_map.mp ha
              rw [← hkk2]
              positivity
            obtain ⟨s3, heq3, h3f, h3md, h3b, h3pt, h3k, h3perm⟩ :=
              IH m (childRect kk l r b t (tdiv2 (l + r)) (tdiv2 (b + t))).1
                (childRect kk l r b t (tdiv2 (l + r)) (tdiv2 (b + t))).2.1
                (childRect kk l r b t (tdiv2 (l + r)) (tdiv2 (b + t))).2.2.1
                (childRect kk l r b t (tdiv2 (l + r)) (tdiv2 (b + t))).2.2.2
                (path ++ [kk]) s2 hszm hwfm hcellm h2f h2md h2b h2pt
                (by rw [h2k]; linarith)
            have hlen3 : s3.maxHeap.length = s2.maxHeap.length + m.contentsList.length := by
              have := h3perm.length_eq
              simpa using this
            obtain ⟨s', heq', h'f, h'md, h'b, h'pt, h'k, h'perm⟩ :=
              ihks s3 h3f h3md h3b h3pt (h3k.trans h2k)
                (by rw [hlen3]; push_cast; linarith)
            refine ⟨s', by rw [visitFold_cons_some_ok _ hck heq3]; exact heq', h'f, h'md,
              h'b, h'pt, h'k, ?_⟩
            refine h'perm.trans ?_
            simp only [List.map_cons, List.join_cons, hck]
            rw [show Node.ocontents (some m) = m.contentsList from rfl]
            have hstep : (s3.maxHeap ++
                (rest.map (fun kk => (Node.ocontents (n.child kk)).map
                  (fun x => (x, DistanceSquared (ptOf x) p)))).join).Perm
                ((s2.maxHeap ++ m.contentsList.map (fun x => (x, DistanceSquared (ptOf x) p))) ++
                (rest.map (fun kk => (Node.ocontents (n.child kk)).map
                  (fun x => (x, DistanceSquared (ptOf x) p)))).join) :=
              h3perm.append_right _
            exact hstep.trans (by rw [List.append_assoc])
      have hbudget2 : ((s1.maxHeap.length : ℤ) +
          (((cycleFrom (childIndex (tdiv2 (l + r)) (tdiv2 (b + t)) s1.point)).map
            (fun kk => ((Node.ocontents (n.child kk)).length : ℤ))).sum) ≤ s.k) := by
        have hsum : ((cycleFrom (childIndex (tdiv2 (l + r)) (tdiv2 (b + t))
            s1.point)).map (fun kk => ((Node.ocontents (n.child kk)).length : ℤ))).sum =
            (([0, 1, 2, 3] : List (Fin 4)).map
              (fun kk => ((Node.ocontents (n.child kk)).length : ℤ))).sum :=
          List.Perm.sum_eq ((cycleFrom_perm _).map _)
        rw [hsum]
        obtain ⟨v, c0, c1, c2, c3⟩ := n
        simp only [List.map_cons, List.map_nil, List.sum_cons, List.sum_nil, Node.child,
          Node.value] at hlen1 ⊢
        rw [contents_length_mk] at hbudget
        rw [hlen1]
        push_cast at hbudget ⊢
        omega
      obtain ⟨s', heq', h'f, h'md, h'b, h'pt, h'k, h'perm⟩ :=
        hfold (cycleFrom (childIndex (tdiv2 (l + r)) (tdiv2 (b + t)) s1.point)) s1
          hf1 hmd1 hb1 hpt1 hk1 hbudget2
      refine ⟨s', heq', h'f, h'md, h'b, h'pt, h'k, ?_⟩
      refine h'perm.trans ?_
      have hjoin : (((cycleFrom (childIndex (tdiv2 (l + r)) (tdiv2 (b + t))
          s1.point)).map (fun kk => (Node.ocontents (n.child kk)).map
            (fun x => (x, DistanceSquared (ptOf x) p)))).join).Perm
          ((([0, 1, 2, 3] : List (Fin 4)).map (fun kk => (Node.ocontents (n.child kk)).map
            (fun x => (x, DistanceSquared (ptOf x) p)))).join) :=
        ((cycleFrom_perm _).map _).join
      refine (List.Perm.append (List.Perm.refl s1.maxHeap) hjoin).trans ?_
      have hfinal : (s1.maxHeap ++ (([0, 1, 2, 3] : List (Fin 4)).map
          (fun kk => (Node.ocontents (n.child kk)).map
            (fun x => (x, DistanceSquared (ptOf x) p)))).join).Perm
          ((s.maxHeap ++ n.value.toList.map (fun x => (x, DistanceSquared (ptOf x) p))) ++
          (([0, 1, 2, 3] : List (Fin 4)).map (fun kk => (Node.ocontents (n.child kk)).map
            (fun x => (x, DistanceSquared (ptOf x) p)))).join) :=
        hperm1.append_right _
      refine hfinal.trans ?_
      obtain ⟨v, c0, c1, c2, c3⟩ := n
      rw [contents_mk]
      simp only [List.map_cons, List.map_nil, List.join_cons, List.join_nil, Node.child,
        List.map_append, List.append_assoc, List.append_nil]
      exact List.Perm.refl _

/-- C4 (counterexample): the claim quantifies over every `k ≥ 0`, but at
`k = 0` on a tree holding three entities `KNearest` panics (the visitor pops
the heap back to empty and reads its top) instead of returning a list of
length at most `0`. -/
theorem knearest_zero_cex :
    sampleTree2.KNearest ⟨5, 5⟩ 0 none = none ∧ sampleTree2.contentsList.length = 3 :=
  ⟨rfl, rfl⟩

/-- C4 (amended to `k ≥ 1`): on a well-formed tree, `KNearest(p, k)` with no
maximum distance succeeds and returns a list of length at most `k` whose
entries are in non-decreasing order of squared distance to `p`; when `k` is
at least the number of stored entities the result is all of them (sorted, as
a permutation of the stored contents). -/
theorem knearest_sorted_bounded [PointerOf α] (q : QuadtreeOf α) (p : Pt) (k : ℤ)
    (hwf : q.WF = true) (hk : 1 ≤ k) :
    ∃ res, q.KNearest p k none = some res ∧ (res.length : ℤ) ≤ k ∧
      List.Pairwise
        (fun a b => DistanceSquared (ptOf a) p ≤ DistanceSquared (ptOf b) p) res ∧
      ((q.contentsList.length : ℤ) ≤ k → res.Perm q.contentsList) := by
  cases hr : q.root with
  | none =>
    have hM : q.KNearest p k none = some [] := by
      unfold QuadtreeOf.KNearest QuadtreeOf.KNearestMatching
      rw [hr]
    have hC : q.contentsList = [] := by
      unfold QuadtreeOf.contentsList
      rw [hr]
    refine ⟨[], hM, ?_, List.Pairwise.nil, by intro _; rw [hC]⟩
    simp only [List.length_nil, Nat.cast_zero]
    omega
  | some rt =>
    unfold QuadtreeOf.WF at hwf
    rw [hr] at hwf
    simp only [Bool.and_eq_true, decide_eq_true_eq] at hwf
    obtain ⟨⟨hpx, hpy⟩, hnwf⟩ := hwf
    have hcell : cellWithin q.bound q.bound.min.x q.bound.max.x q.bound.min.y
        q.bound.max.y := ⟨le_refl _, hpx, le_refl _, le_refl _, hpy, le_refl _⟩
    have hinv0 : NearInv p (none : Option (α → Bool)) k
        (initNearest q.bound p k none none) := by
      refine ⟨rfl, rfl, rfl, ?_, List.Pairwise.nil, ?_⟩
      · show (([] : List (α × ℤ)).length : ℤ) ≤ k
        simp only [List.length_nil, Nat.cast_zero]
        omega
      · intro e he
        exact absurd he (List.not_mem_nil e)
    obtain ⟨s', heq, hpt', hf', hk', hlen', hsort', hdist'⟩ :=
      nearVisit_inv p (none : Option (α → Bool)) k hk (Node.size rt) rt
        q.bound.min.x q.bound.max.x q.bound.min.y q.bound.max.y []
        (initNearest q.bound p k none none) hinv0
    have hM : q.KNearest p k none = some (repack s'.maxHeap) := by
      unfold QuadtreeOf.KNearest QuadtreeOf.KNearestMatching
      rw [hr]
      simp only [heq]
    have hC : q.contentsList = rt.contentsList := by
      unfold QuadtreeOf.contentsList
      rw [hr]
    refine ⟨repack s'.maxHeap, hM, ?_, ?_, ?_⟩
    · unfold repack
      simp only [List.length_reverse, List.length_map]
      exact hlen'
    · unfold repack
      rw [List.pairwise_reverse, List.pairwise_map]
      refine List.Pairwise.imp_of_mem ?_ hsort'
      intro a b ha hb hab
      rw [hdist' a ha, hdist' b hb] at hab
      exact hab
    · intro hcomp
      rw [hC] at hcomp ⊢
      obtain ⟨s2, heq2, _, _, _, _, _, hperm⟩ :=
        nearVisit_collect q.bound p (Node.size rt) rt q.bound.min.x q.bound.max.x
          q.bound.min.y q.bound.max.y []
          (initNearest q.bound p k (none : Option (α → Bool)) none)
          le_rfl hnwf hcell rfl rfl rfl rfl
          (by show (([] : List (α × ℤ)).length : ℤ) + (rt.contentsList.length : ℤ) ≤ k
              simpa using hcomp)
      have hss : s2 = s' := Option.some.inj (heq2.symm.trans heq)
      rw [hss] at hperm
      have hperm0 : s'.maxHeap.Perm
          (rt.contentsList.map (fun x => (x, DistanceSquared (ptOf x) p))) := by
        refine hperm.trans ?_
        show (([] : List (α × ℤ)) ++ _).Perm _
        rw [List.nil_append]
      have hmapfst : ∀ l : List α, (l.map
          (fun x => (x, DistanceSquared (ptOf x) p))).map Prod.fst = l := by
        intro l
        induction l with
        | nil => rfl
        | cons a l2 ih =>
          simp only [List.map_cons]
          rw [ih]
      unfold repack
      refine (List.reverse_perm _).trans ((hperm0.map Prod.fst).trans ?_)
      rw [hmapfst rt.contentsList]

/-- Witness for C4's amended theorem at the four-point walkthrough tree with
`k = 2`: the hypotheses hold at this input and the conclusion follows. -/
theorem knearest_sorted_bounded_witness :
    sampleTree4.WF = true ∧ (1 : ℤ) ≤ 2 ∧
    ∃ res, sampleTree4.KNearest ⟨0, 0⟩ 2 none = some res ∧ (res.length : ℤ) ≤ 2 ∧
      List.Pairwise
        (fun a b => DistanceSquared (ptOf a) ⟨0, 0⟩ ≤ DistanceSquared (ptOf b) ⟨0, 0⟩) res ∧
      ((sampleTree4.contentsList.length : ℤ) ≤ 2 → res.Perm sampleTree4.contentsList) :=
  ⟨by decide, by decide, knearest_sorted_bounded sampleTree4 ⟨0, 0⟩ 2 (by decide) (by decide)⟩
